import Mathlib

/-!
# kewd: a wallpaper daemon with a control socket

A shallow embedding of `kewd.go`: the wallpaper resolver `findWallpaper`, the
desktop window with `Desktop.loadWallpaper` and `Desktop.reload`, the package
variables `runtimeDir` and `sockPath`, and the connection handler and accept
loop of `controlServer`.

The program leans on the Go standard library. The routines it calls are
embedded from their Go sources: `utf8.DecodeRuneInString`,
`utf8.DecodeLastRuneInString`, `utf8.AppendRune`, `unicode.IsSpace`,
`unicode.ToLower`, `strings.Map`, `strings.ToLower`, `strings.TrimSpace` with
`strings.TrimFunc`, `filepath.Join` and the verb `%d` of `fmt.Sprintf`; loops
over a string become recursions over its bytes. `filepath.Clean` is given by
the rules of its documentation, applied to the elements of the path. The case
table of `unicode.ToLower` beyond ASCII depends on the Unicode version of the
Go release and is a parameter, `caseTable`.

Go strings are byte sequences; they are embedded as lists of natural numbers,
each byte being a number below 256. What the operating system and GTK decide
is a parameter too: `stat p` tells whether `os.Stat(p)` succeeds, `home` is the
result of `os.UserHomeDir()`, an `Env` holds `XDG_RUNTIME_DIR` and the uid, and
a `ReadResult` is what `c.Read` returned, `connRead` telling what a connection
of the unix listener returns (no byte when the read fails). Effects are kept
as traces of events in program order, and the state shared between the
goroutines is a record that each step maps to a new one.
-/

namespace Kewd

/-! ## Go strings -/

/-- A Go string: its sequence of bytes. -/
abbrev GoString := List Nat

/-- The bytes of an ASCII literal. -/
def str (s : String) : GoString := s.toList.map Char.toNat

/-! ## unicode/utf8 -/

/-- The value of `utf8.RuneError`, U+FFFD. -/
def runeError : Nat := 0xFFFD

/-- The tables `first` and `acceptRanges` of `unicode/utf8` for a lead byte that
is not ASCII: the length of the encoding and the accepted range of the second
byte; `none` for the bytes marked invalid (`xx`). -/
def leadInfo (b : Nat) : Option (Nat × Nat × Nat) :=
  if b < 0xC2 then none
  else if b ≤ 0xDF then some (2, 0x80, 0xBF)
  else if b = 0xE0 then some (3, 0xA0, 0xBF)
  else if b ≤ 0xEC then some (3, 0x80, 0xBF)
  else if b = 0xED then some (3, 0x80, 0x9F)
  else if b ≤ 0xEF then some (3, 0x80, 0xBF)
  else if b = 0xF0 then some (4, 0x90, 0xBF)
  else if b ≤ 0xF3 then some (4, 0x80, 0xBF)
  else if b = 0xF4 then some (4, 0x80, 0x8F)
  else none

/-- The function `utf8.DecodeRuneInString`: the first rune of `s` and its width
in bytes; `(RuneError, 1)` for an invalid encoding, `(RuneError, 0)` for the
empty string. -/
def decodeRune : GoString → Nat × Nat
  | [] => (runeError, 0)
  | s0 :: rest =>
    if s0 < 0x80 then (s0, 1) else
    match leadInfo s0 with
    | none => (runeError, 1)
    | some (sz, lo, hi) =>
      if rest.length + 1 < sz then (runeError, 1) else
      match rest with
      | [] => (runeError, 1)
      | s1 :: r1 =>
        if s1 < lo ∨ hi < s1 then (runeError, 1) else
        if sz ≤ 2 then ((s0 % 32) * 64 + s1 % 64, 2) else
        match r1 with
        | [] => (runeError, 1)
        | s2 :: r2 =>
          if s2 < 0x80 ∨ 0xBF < s2 then (runeError, 1) else
          if sz ≤ 3 then ((s0 % 16) * 4096 + (s1 % 64) * 64 + s2 % 64, 3) else
          match r2 with
          | [] => (runeError, 1)
          | s3 :: _ =>
            if s3 < 0x80 ∨ 0xBF < s3 then (runeError, 1) else
            ((s0 % 8) * 262144 + (s1 % 64) * 4096 + (s2 % 64) * 64 + s3 % 64, 4)

/-- The function `utf8.AppendRune`: the UTF-8 encoding of a rune, the encoding
of `RuneError` for surrogates and values above `MaxRune`. -/
def encodeRune (r : Nat) : GoString :=
  if r ≤ 0x7F then [r]
  else if r ≤ 0x7FF then [0xC0 + r / 64, 0x80 + r % 64]
  else if 0x10FFFF < r ∨ (0xD800 ≤ r ∧ r ≤ 0xDFFF) then [0xEF, 0xBF, 0xBD]
  else if r ≤ 0xFFFF then [0xE0 + r / 4096, 0x80 + (r / 64) % 64, 0x80 + r % 64]
  else [0xF0 + r / 262144, 0x80 + (r / 4096) % 64, 0x80 + (r / 64) % 64, 0x80 + r % 64]

/-- The function `utf8.RuneStart`: the byte is not a continuation byte. -/
def runeStart (b : Nat) : Bool := !(0x80 ≤ b && b ≤ 0xBF)

/-- The function `utf8.DecodeLastRuneInString`: the last rune of `s` and its
width. The backward search for the start of the rune looks at most
`UTFMax = 4` bytes back; the loop is written out, and ends at the byte before
the limit, or at 0 for a string of fewer than five bytes. -/
def decodeLastRune (s : GoString) : Nat × Nat :=
  match s.reverse with
  | [] => (runeError, 0)
  | r :: _ =>
    if r < 0x80 then (r, 1) else
    let e := s.length
    let start :=
      if 2 ≤ e ∧ runeStart (s.getD (e - 2) 0) then e - 2
      else if 3 ≤ e ∧ runeStart (s.getD (e - 3) 0) then e - 3
      else if 4 ≤ e ∧ runeStart (s.getD (e - 4) 0) then e - 4
      else e - 5
    let d := decodeRune (s.drop start)
    if start + d.2 ≠ e then (runeError, 1) else d

/-- The runes a `for range` loop over a string yields. The first argument
counts the bytes still to skip, the tail of the rune decoded last. -/
def runesFrom : Nat → GoString → List Nat
  | _, [] => []
  | k + 1, _ :: bs => runesFrom k bs
  | 0, b :: bs => (decodeRune (b :: bs)).1 :: runesFrom ((decodeRune (b :: bs)).2 - 1) bs

/-- The runes of a string, invalid bytes decoded as `RuneError`. -/
def runes (s : GoString) : List Nat := runesFrom 0 s

/-! ## unicode -/

/-- The function `unicode.IsSpace`: the Latin-1 spaces and the `White_Space`
table. -/
def isSpace (r : Nat) : Bool :=
  if r ≤ 0xFF then
    r = 9 || r = 10 || r = 11 || r = 12 || r = 13 || r = 32 || r = 0x85 || r = 0xA0
  else
    r = 0x1680 || (0x2000 ≤ r && r ≤ 0x200A) || r = 0x2028 || r = 0x2029 ||
      r = 0x202F || r = 0x205F || r = 0x3000

/-- The ASCII case shift `c += 'a' - 'A'` for `'A' <= c && c <= 'Z'`, which
`unicode.ToLower` and `strings.ToLower` both spell out. -/
def asciiLower (c : Nat) : Nat := if 65 ≤ c ∧ c ≤ 90 then c + 32 else c

/-- The function `unicode.ToLower`: ASCII is handled by the explicit fast path,
the other runes by the case table of the Unicode version of the Go release,
which is a parameter here. -/
def unicodeToLower (caseTable : Nat → Nat) (r : Nat) : Nat :=
  if r ≤ 0x7F then asciiLower r else caseTable r

/-! ## strings -/

/-- The function `strings.Map` for a mapping that drops no rune: every rune of
the string, an invalid byte counting as `RuneError`, is replaced by the
encoding of its image. -/
def stringsMap (mapping : Nat → Nat) (s : GoString) : GoString :=
  (runes s).flatMap fun c => encodeRune (mapping c)

/-- The function `strings.ToLower`. -/
def toLower (caseTable : Nat → Nat) (s : GoString) : GoString :=
  let isASCII := s.all fun c => decide (c < 0x80)
  let hasUpper := s.any fun c => decide (65 ≤ c ∧ c ≤ 90)
  if isASCII then
    if !hasUpper then s
    else s.map asciiLower
  else stringsMap (unicodeToLower caseTable) s

/-- The table `asciiSpace` of package strings. -/
def asciiSpace (c : Nat) : Bool :=
  c = 9 || c = 10 || c = 11 || c = 12 || c = 13 || c = 32

/-- The function `strings.TrimLeftFunc(s, unicode.IsSpace)`: the suffix of `s`
starting at its first rune that is not a space, empty when there is none. The
first argument counts the bytes still to skip. -/
def trimLeftFrom : Nat → GoString → GoString
  | _, [] => []
  | k + 1, _ :: bs => trimLeftFrom k bs
  | 0, b :: bs =>
    if isSpace (decodeRune (b :: bs)).1 then trimLeftFrom ((decodeRune (b :: bs)).2 - 1) bs
    else b :: bs

/-- The loop of `lastIndexFunc(s, unicode.IsSpace, false)`, run over the
reversed string: the index at which the last rune that is not a space starts.
The first argument counts the bytes still to skip. -/
def lastNonSpaceFrom : Nat → List Nat → Option Nat
  | _, [] => none
  | k + 1, _ :: rs => lastNonSpaceFrom k rs
  | 0, b :: rs =>
    let d := decodeLastRune (b :: rs).reverse
    if isSpace d.1 then lastNonSpaceFrom (d.2 - 1) rs
    else some ((b :: rs).length - d.2)

/-- The function `strings.TrimRightFunc(s, unicode.IsSpace)`. -/
def trimRightFunc (s : GoString) : GoString :=
  match lastNonSpaceFrom 0 s.reverse with
  | none => []
  | some i =>
    if 0x80 ≤ s.getD i 0 then s.take (i + (decodeRune (s.drop i)).2)
    else s.take (i + 1)

/-- The function `strings.TrimFunc(s, unicode.IsSpace)`. -/
def trimFunc (s : GoString) : GoString := trimRightFunc (trimLeftFrom 0 s)

/-- The second loop of `strings.TrimSpace`, over the reversed rest of the
string: trailing ASCII spaces are cut; the first byte that is not ASCII hands
what is left to `TrimRightFunc`. -/
def trimStopRev : List Nat → GoString
  | [] => []
  | c :: rest =>
    if 0x80 ≤ c then trimRightFunc (c :: rest).reverse
    else if asciiSpace c then trimStopRev rest
    else (c :: rest).reverse

/-- The first loop of `strings.TrimSpace`: leading ASCII spaces are skipped; the
first byte that is not ASCII hands the rest to `TrimFunc`. -/
def trimStart : GoString → GoString
  | [] => []
  | c :: rest =>
    if 0x80 ≤ c then trimFunc (c :: rest)
    else if asciiSpace c then trimStart rest
    else trimStopRev (c :: rest).reverse

/-- The function `strings.TrimSpace`. -/
def trimSpace (s : GoString) : GoString := trimStart s

/-! ## The control socket: command parser and connection handler -/

/-- The three ways the handler's `switch cmd` can go. -/
inductive Command where
  | reload
  | exit
  | unknown
  deriving DecidableEq

/-- The result of `c.Read(buf)` with a buffer of 256 bytes: the bytes
`buf[:n]` and whether the call returned an error. Which results the
connections of the handler give is told by `connRead`. -/
structure ReadResult where
  data : GoString
  failed : Bool
  deriving DecidableEq

/-- What happens on a connection before its read returns: of the bytes `sent`
by the client the first `arrived` have come in (at least one, the read
waiting until then); or the read fails (the client closed or reset the
connection before a byte came in, or the descriptor is in error). -/
inductive Arrival where
  | bytes (sent : GoString) (arrived : Nat)
  | failure
  deriving DecidableEq

/-- The call `c.Read(buf)` on a connection accepted from the unix listener,
with the buffer of 256 bytes. A read that delivers bytes returns those that
have come in, as many as fit the buffer, and no error; it is a partial read
when the client sent more. A read that fails returns `n = 0` with the error
(`poll.FD.Read` sets `n = 0` when the system call fails, and the end of the
stream is `0, io.EOF`), so `buf[:n]` is empty. -/
def connRead : Arrival → ReadResult
  | Arrival.bytes sent arrived => ⟨sent.take (min arrived 256), false⟩
  | Arrival.failure => ⟨[], true⟩

/-- The line `cmd := strings.TrimSpace(strings.ToLower(string(buf[:n])))`. -/
def cmdOf (caseTable : Nat → Nat) (data : GoString) : GoString :=
  trimSpace (toLower caseTable data)

/-- The branch `switch cmd` takes. -/
def parseCommand (caseTable : Nat → Nat) (data : GoString) : Command :=
  let cmd := cmdOf caseTable data
  if cmd = str "reload" then Command.reload
  else if cmd = str "exit" then Command.exit
  else Command.unknown

/-! ## path/filepath on Unix -/

/-- The path elements of a string: the pieces between its separators `/`. -/
def splitSlash : GoString → List GoString
  | [] => [[]]
  | c :: cs =>
    if c = 47 then [] :: splitSlash cs
    else
      match splitSlash cs with
      | [] => [[c]]
      | h :: t => (c :: h) :: t

/-- The function `strings.Join(elems, "/")`. -/
def joinSlash : List GoString → GoString
  | [] => []
  | [c] => c
  | c :: cs => c ++ 47 :: joinSlash cs

/-- One path element processed by `filepath.Clean`, the elements kept so far
being a stack with the last one on top: an empty element and `.` are dropped,
`..` removes the element before it, is dropped at the root, and is kept at the
start of a path that is not rooted; any other element is kept. -/
def cleanStep (rooted : Bool) (stack : List GoString) (e : GoString) : List GoString :=
  if e = [] ∨ e = [46] then stack
  else if e = [46, 46] then
    match stack with
    | [] => if rooted then [] else [[46, 46]]
    | top :: below => if rooted = false ∧ top = [46, 46] then [46, 46] :: stack else below
  else e :: stack

/-- The function `filepath.Clean`, on the path elements of its argument. -/
def filepathClean (path : GoString) : GoString :=
  if path = [] then [46]
  else
    let rooted := decide (path.head? = some 47)
    let kept := ((splitSlash path).foldl (cleanStep rooted) []).reverse
    let out := (if rooted then [47] else []) ++ joinSlash kept
    if out = [] then [46] else out

/-- The function `filepath.Join`: leading empty elements are ignored, the
others are joined by `/` and the result is cleaned; no element gives the empty
string. -/
def filepathJoin (elem : List GoString) : GoString :=
  match elem.dropWhile fun e => decide (e = []) with
  | [] => []
  | rest => filepathClean (joinSlash rest)

/-! ## fmt -/

/-- The decimal digits of `n` in front of `acc`, most significant first. -/
def decimalFrom : Nat → Nat → GoString → GoString
  | 0, _, acc => acc
  | fuel + 1, n, acc =>
    if n < 10 then (48 + n) :: acc
    else decimalFrom fuel (n / 10) ((48 + n % 10) :: acc)

/-- The verb `%d` of `fmt.Sprintf` on a number that is not negative. -/
def formatDecimal (n : Nat) : GoString := decimalFrom (n + 1) n []

/-! ## Package variables -/

/-- What the package variables read from the environment of the process:
`XDG_RUNTIME_DIR` (`none` when unset) and the result of `os.Getuid()`, which
is not negative on Unix. -/
structure Env where
  xdgRuntimeDir : Option GoString
  uid : Nat

/-- The function `os.Getenv`: the value, empty when the variable is unset. -/
def getenv (v : Option GoString) : GoString := v.getD []

/-- The variable `supportedImg`. -/
def supportedImg : List GoString := [str ".png", str ".jpg", str ".jpeg", str ".webp"]

/-- The variable `runtimeDir`. -/
def runtimeDir (env : Env) : GoString :=
  let v := getenv env.xdgRuntimeDir
  if v ≠ [] then v
  else str "/tmp/live-" ++ formatDecimal env.uid

/-- The variable `sockPath`. -/
def sockPath (env : Env) : GoString := filepathJoin [runtimeDir env, str "live.sock"]

/-! ## The desktop window -/

/-- A widget: an image made by `gtk.ImageNewFromFile`, or any other widget. -/
inductive Widget where
  | image (file : GoString)
  | other (id : Nat)
  deriving DecidableEq

/-- The type `gdk.RGBA`; only the values 0 and 1 occur. -/
structure RGBA where
  red : Nat
  green : Nat
  blue : Nat
  alpha : Nat
  deriving DecidableEq

/-- The display state: the children of `d.win`, the field `d.image`, the
background colour set by `OverrideBackgroundColor`, and whether the window is
shown. -/
structure Desktop where
  children : List Widget
  image : Option Widget
  background : Option RGBA
  visible : Bool
  deriving DecidableEq

/-- What `loadWallpaper` and `reload` do, in program order; `assignImage` is the
assignment `d.image = img`. -/
inductive Event where
  | lock
  | unlock
  | getChildren
  | remove (w : Widget)
  | stat (p : GoString)
  | overrideBackground (c : RGBA)
  | imageNewFromFile (p : GoString)
  | setHAlign (w : Widget)
  | setVAlign (w : Widget)
  | assignImage (w : Widget)
  | add (w : Widget)
  | println (s : GoString)
  | showAll
  deriving DecidableEq

/-- The inner loop of `findWallpaper` over the extensions left: the first
path for which `os.Stat` succeeds, with the calls to `os.Stat` made. -/
def probeExts (stat : GoString → Bool) (base : GoString) :
    List GoString → Option GoString × List Event
  | [] => (none, [])
  | ext :: exts =>
    let p := filepathJoin [base, str "wall" ++ ext]
    if stat p then (some p, [Event.stat p])
    else ((probeExts stat base exts).1, Event.stat p :: (probeExts stat base exts).2)

/-- The outer loop of `findWallpaper` over the directories left. -/
def probeBases (stat : GoString → Bool) : List GoString → Option GoString × List Event
  | [] => (none, [])
  | base :: bases =>
    let r := probeExts stat base supportedImg
    if r.1.isSome then r
    else ((probeBases stat bases).1, r.2 ++ (probeBases stat bases).2)

/-- The function `findWallpaper` with the calls to `os.Stat` it makes; `home`
is what `os.UserHomeDir()` returns (empty when it fails, the error being
ignored) and `stat p` tells whether `os.Stat(p)` returns no error. When the
loops end without a path the result is the empty string. -/
def findWallpaperTrace (home : GoString) (stat : GoString → Bool) : GoString × List Event :=
  let userDir := filepathJoin [home, str ".config"]
  let sysDir := str "/etc/kereta"
  let r := probeBases stat [userDir, sysDir]
  (r.1.getD [], r.2)

/-- The function `findWallpaper`. -/
def findWallpaper (home : GoString) (stat : GoString → Bool) : GoString :=
  (findWallpaperTrace home stat).1

/-- The colour of the fallback: `gdk.RGBA` with red, green, blue 0 and alpha 1. -/
def black : RGBA := ⟨0, 0, 0, 1⟩

/-- The method `Add` of a window, which is a `GtkBin`: the widget becomes the
child when the window has none, and is refused otherwise. -/
def windowAdd (w : Widget) (children : List Widget) : List Widget :=
  if children = [] then [w] else children

/-- The method `Desktop.loadWallpaper`: the new display state and the trace of
what was done. -/
def Desktop.loadWallpaper (home : GoString) (stat : GoString → Bool) (d : Desktop) :
    Desktop × List Event :=
  let items := d.children
  let d1 : Desktop := { d with children := items.foldl (fun cs w => cs.erase w) d.children }
  let found := findWallpaperTrace home stat
  let pre := [Event.lock, Event.getChildren] ++ items.map Event.remove ++ found.2
  if found.1 = [] then
    ({ d1 with background := some black }, pre ++ [Event.overrideBackground black, Event.unlock])
  else
    let img := Widget.image found.1
    ({ d1 with image := some img, children := windowAdd img d1.children },
      pre ++ [Event.imageNewFromFile found.1, Event.setHAlign img, Event.setVAlign img,
        Event.assignImage img, Event.add img, Event.unlock])

/-- The method `Desktop.reload`. -/
def Desktop.reload (home : GoString) (stat : GoString → Bool) (d : Desktop) :
    Desktop × List Event :=
  let r := Desktop.loadWallpaper home stat d
  ({ r.1 with visible := true },
    [Event.println (str "Reloading wallpaper")] ++ r.2 ++ [Event.showAll])

/-- The function `NewDesktop`: a fresh window without children, the wallpaper
loaded, the window shown. The window hints and the geometry set in
`onRealize` are not part of the display state kept here. -/
def NewDesktop (home : GoString) (stat : GoString → Bool) : Desktop :=
  { (Desktop.loadWallpaper home stat ⟨[], none, none, false⟩).1 with visible := true }

/-! ## The connection handler and the UI thread -/

/-- The closures handed to `glib.IdleAdd`: `d.reload()` and `gtk.MainQuit()`. -/
inductive Task where
  | reload
  | quit
  deriving DecidableEq

/-- What a connection handler does, in program order. -/
inductive ConnEffect where
  | idleAdd (t : Task)
  | write (bytes : GoString)
  | close
  deriving DecidableEq

/-- The body of the goroutine started for each accepted connection, after the
read; the deferred `c.Close()` comes last. The error of the read is dropped
(`n, _ := c.Read(buf)`). -/
def handleConn (caseTable : Nat → Nat) (r : ReadResult) : List ConnEffect :=
  match parseCommand caseTable r.data with
  | Command.reload =>
    [ConnEffect.idleAdd Task.reload, ConnEffect.write (str "OK reloaded\n"), ConnEffect.close]
  | Command.exit =>
    [ConnEffect.write (str "OK exiting\n"), ConnEffect.idleAdd Task.quit, ConnEffect.close]
  | Command.unknown =>
    [ConnEffect.write (str "ERR unknown command\n"), ConnEffect.close]

/-- The state shared by the goroutines: the idle queue of the GLib main loop
(first in, first out), the display state, and whether `gtk.Main` is still
running. -/
structure Sys where
  idle : List Task
  desk : Desktop
  running : Bool
  deriving DecidableEq

/-- The effect of one step of a handler on the shared state: `glib.IdleAdd`
appends to the idle queue, writing and closing touch the connection only. -/
def applyConnEffect (s : Sys) : ConnEffect → Sys
  | ConnEffect.idleAdd t => { s with idle := s.idle ++ [t] }
  | ConnEffect.write _ => s
  | ConnEffect.close => s

/-- A whole handler run on the shared state. -/
def connStep (caseTable : Nat → Nat) (r : ReadResult) (s : Sys) : Sys :=
  (handleConn caseTable r).foldl applyConnEffect s

/-- What `l.Accept()` returns: an error, or a connection, given by what its
read will return. -/
inductive Accepted where
  | error
  | conn (r : ReadResult)

/-- One pass of the accept loop of `controlServer`: an error is skipped, a
connection gets its handler. -/
def acceptStep (caseTable : Nat → Nat) (a : Accepted) (s : Sys) : Sys :=
  match a with
  | Accepted.error => s
  | Accepted.conn r => connStep caseTable r s

/-- The accept loop of `controlServer`, connection after connection, each
handler run as a whole; the set-up of the socket before the loop is left
out. -/
def controlServer (caseTable : Nat → Nat) (accepts : List Accepted) (s : Sys) : Sys :=
  accepts.foldl (fun st a => acceptStep caseTable a st) s

/-- The effect of one event of `loadWallpaper` or `reload` on the display
state. -/
def applyEvent (d : Desktop) : Event → Desktop
  | Event.remove w => { d with children := d.children.erase w }
  | Event.overrideBackground c => { d with background := some c }
  | Event.assignImage w => { d with image := some w }
  | Event.add w => { d with children := windowAdd w d.children }
  | Event.showAll => { d with visible := true }
  | _ => d

/-- Whether the mutex `lock` is held after an event. -/
def lockAfter (held : Bool) : Event → Bool
  | Event.lock => true
  | Event.unlock => false
  | _ => held

/-- The whole process between two steps: the state shared by the goroutines,
what is left of the idle task the UI thread is running, and whether the
mutex is held. -/
structure Proc where
  sys : Sys
  pending : List Event
  locked : Bool

/-- A step of the process: the accept loop takes a connection and its handler
runs as a whole; or some handler that runs concurrently does its next step;
or the UI thread, when it is idle, takes the oldest task off the idle queue
while the file system is as `stat` tells; or the UI thread does the next step
of the task it is running. -/
inductive Move where
  | accept (a : Accepted)
  | effect (e : ConnEffect)
  | uiBegin (stat : GoString → Bool)
  | uiEvent

/-- One step of the process. A reload taken off the queue is run event by
event; `gtk.MainQuit` ends the main loop, after which no task is taken. -/
def move (caseTable : Nat → Nat) (home : GoString) (p : Proc) : Move → Proc
  | Move.accept a => { p with sys := acceptStep caseTable a p.sys }
  | Move.effect e => { p with sys := applyConnEffect p.sys e }
  | Move.uiBegin stat =>
    if p.sys.running = false ∨ p.pending ≠ [] then p
    else
      match p.sys.idle with
      | [] => p
      | Task.reload :: rest =>
        { p with sys := { p.sys with idle := rest },
                 pending := (Desktop.reload home stat p.sys.desk).2 }
      | Task.quit :: rest => { p with sys := { p.sys with idle := rest, running := false } }
  | Move.uiEvent =>
    match p.pending with
    | [] => p
    | e :: rest =>
      { sys := { p.sys with desk := applyEvent p.sys.desk e }, pending := rest,
        locked := lockAfter p.locked e }

/-- A run of the process: an interleaving of the steps of the handlers and of
the UI thread. -/
def run (caseTable : Nat → Nat) (home : GoString) (moves : List Move) (p : Proc) : Proc :=
  moves.foldl (move caseTable home) p

/-- The process at start-up: the window made by `NewDesktop`, the main loop
running, the UI thread idle, the mutex free. -/
def startProc (home : GoString) (stat : GoString → Bool) (queue : List Task) : Proc :=
  ⟨⟨queue, NewDesktop home stat, true⟩, [], false⟩

/-! ## Vocabulary of the statements -/

/-- The reply of the handler to a command it does not know. -/
def errReply : List ConnEffect :=
  [ConnEffect.write (str "ERR unknown command\n"), ConnEffect.close]

/-- File system operations among the events: `os.Stat` and the loading of an
image file. -/
def isFileOp : Event → Bool
  | Event.stat _ => true
  | Event.imageNewFromFile _ => true
  | _ => false

/-- The events of a trace that happen while the mutex is held, the flag telling
whether it is held at the start. -/
def heldEvents : Bool → List Event → List Event
  | _, [] => []
  | _, Event.lock :: es => heldEvents true es
  | _, Event.unlock :: es => heldEvents false es
  | true, e :: es => e :: heldEvents true es
  | false, _ :: es => heldEvents false es

/-- The display state at the end of one reload while the file system is as
`stat` tells: the image of the resolved path as only child, or no child and
the black background. -/
def EndState (home : GoString) (stat : GoString → Bool) (d : Desktop) : Prop :=
  if findWallpaper home stat = [] then d.children = [] ∧ d.background = some black
  else d.children = [Widget.image (findWallpaper home stat)]

/-- What holds between the steps of a run, `ok` telling which file system
states count: the display state comes from a state `d0` that was the end
state of a reload by the events `pre` done so far of the reload now running,
the mutex is held as these events leave it, and the events still to do are
the rest of that reload; or the UI thread has not begun a reload. -/
def ProcInv (home : GoString) (ok : (GoString → Bool) → Prop) (p : Proc) : Prop :=
  ∃ d0 stat pre, (∃ st, ok st ∧ EndState home st d0) ∧ ok stat ∧
    p.sys.desk = pre.foldl applyEvent d0 ∧ p.locked = pre.foldl lockAfter false ∧
    ((pre = [] ∧ p.pending = []) ∨ (Desktop.reload home stat d0).2 = pre ++ p.pending)

/-- An absolute path in clean form other than the root, such as `/home/u`. -/
def IsAbsDir (p : GoString) : Prop :=
  filepathClean p = p ∧ p.head? = some 47 ∧ p ≠ [47]

instance IsAbsDir.decidable (p : GoString) : Decidable (IsAbsDir p) := by
  unfold IsAbsDir; infer_instance

/-- The eight paths `findWallpaper` tries, in the order of the search. -/
def candidates (home : GoString) : List GoString :=
  [filepathJoin [filepathJoin [home, str ".config"], str "wall.png"],
   filepathJoin [filepathJoin [home, str ".config"], str "wall.jpg"],
   filepathJoin [filepathJoin [home, str ".config"], str "wall.jpeg"],
   filepathJoin [filepathJoin [home, str ".config"], str "wall.webp"],
   filepathJoin [str "/etc/kereta", str "wall.png"],
   filepathJoin [str "/etc/kereta", str "wall.jpg"],
   filepathJoin [str "/etc/kereta", str "wall.jpeg"],
   filepathJoin [str "/etc/kereta", str "wall.webp"]]

/-- A path element that `filepath.Clean` keeps as it is. -/
def NormalElem (e : GoString) : Prop :=
  e ≠ [] ∧ 47 ∉ e ∧ e ≠ [46] ∧ e ≠ [46, 46]

/-- The absolute path with the given elements. -/
def absPath (es : List GoString) : GoString := es.flatMap fun e => 47 :: e

/-- The number a string of decimal digits denotes. -/
def decimalValue (ds : GoString) : Nat := ds.foldl (fun a d => 10 * a + (d - 48)) 0

/-- White space in front of or behind a command, as `strings.TrimSpace` sees
it: the UTF-8 encodings of runes for which `unicode.IsSpace` holds (tab, line
feed, vertical tab, form feed, carriage return, space, and the Unicode
spaces), one after the other. -/
def Blank (w : GoString) : Prop :=
  ∃ rs : List Nat, (∀ r ∈ rs, isSpace r = true) ∧ w = rs.flatMap encodeRune

/-- The function `unicode.ToUpper`: ASCII by its explicit fast path, the other
runes by the case table of the Unicode version, a parameter as for
`unicode.ToLower`. The program does not call it; it tells which letters are
forms of one letter. -/
def unicodeToUpper (upperTable : Nat → Nat) (r : Nat) : Nat :=
  if r ≤ 0x7F then (if 97 ≤ r ∧ r ≤ 122 then r - 32 else r) else upperTable r

/-- Entries of the lower case mapping of `unicode.CaseRanges` for runes beyond
ASCII with an ASCII lower case form: U+0130 (capital I with dot above) gives
`i`, U+212A (Kelvin sign) gives `k`. The other runes are left as they are
here; one of them is U+0131 (small dotless i), which is a lower case letter
and which `unicode.ToLower` leaves as it is. -/
def latinLower (r : Nat) : Nat :=
  if r = 0x130 then 0x69 else if r = 0x212A then 0x6B else r

/-- Entries of the upper case mapping of `unicode.CaseRanges` for runes beyond
ASCII with an ASCII upper case form: U+0131 (small dotless i) gives `I`,
U+017F (long s) gives `S`. The other runes are left as they are here. -/
def latinUpper (r : Nat) : Nat :=
  if r = 0x131 then 0x49 else if r = 0x17F then 0x53 else r

/-- Two runes that are forms of one letter: equal, or one is the upper case or
the lower case form of the other. -/
def CaseForms (lowerTable upperTable : Nat → Nat) (a b : Nat) : Prop :=
  a = b ∨ unicodeToUpper upperTable a = b ∨ unicodeToUpper upperTable b = a ∨
    unicodeToLower lowerTable a = b ∨ unicodeToLower lowerTable b = a

/-- Two strings that differ only in the case of their letters: rune by rune
they hold forms of one letter. -/
def DifferInCase (lowerTable upperTable : Nat → Nat) (s t : GoString) : Prop :=
  List.Forall₂ (CaseForms lowerTable upperTable) (runes s) (runes t)

/-- Two runes with the same lower case form under `unicode.ToLower`, as `A`
and `a`, or U+0130 and `i`. -/
def SameLower (caseTable : Nat → Nat) (a b : Nat) : Prop :=
  unicodeToLower caseTable a = unicodeToLower caseTable b

/-- Two strings that differ only in letters with the same lower case form:
rune by rune, a byte that is not part of a valid encoding counting as
`RuneError` as in a `for range` loop. -/
def CaseVariant (caseTable : Nat → Nat) (s t : GoString) : Prop :=
  List.Forall₂ (SameLower caseTable) (runes s) (runes t)

/-- Two command strings that differ only in letters with the same lower case
form or in the white space around them. -/
def SameCommandText (caseTable : Nat → Nat) (s t : GoString) : Prop :=
  ∃ w1 c w2 v1 d v2, s = w1 ++ c ++ w2 ∧ t = v1 ++ d ++ v2 ∧
    Blank w1 ∧ Blank w2 ∧ Blank v1 ∧ Blank v2 ∧ CaseVariant caseTable c d

/-! # Theorems -/

/-! ## The connection handler -/

theorem cmdOf_nil (caseTable : Nat → Nat) : cmdOf caseTable [] = [] := rfl

theorem parseCommand_unknown (caseTable : Nat → Nat) (data : GoString)
    (h1 : cmdOf caseTable data ≠ str "reload") (h2 : cmdOf caseTable data ≠ str "exit") :
    parseCommand caseTable data = Command.unknown := by
  simp [parseCommand, h1, h2]

theorem parseCommand_reload (caseTable : Nat → Nat) (data : GoString)
    (h : cmdOf caseTable data = str "reload") :
    parseCommand caseTable data = Command.reload := by
  simp [parseCommand, h]

theorem parseCommand_exit (caseTable : Nat → Nat) (data : GoString)
    (h : cmdOf caseTable data = str "exit") :
    parseCommand caseTable data = Command.exit := by
  have hne : str "exit" ≠ str "reload" := by decide
  simp [parseCommand, h, hne]

theorem handleConn_unknown (caseTable : Nat → Nat) (r : ReadResult) (s : Sys)
    (h1 : cmdOf caseTable r.data ≠ str "reload") (h2 : cmdOf caseTable r.data ≠ str "exit") :
    handleConn caseTable r = errReply ∧ connStep caseTable r s = s := by
  have h := parseCommand_unknown caseTable r.data h1 h2
  constructor
  · simp [handleConn, h, errReply]
  · simp [connStep, handleConn, h, applyConnEffect]

/-- Claim C2: for every input whose trimmed, lowercased form is neither `reload` nor
`exit`, the empty input included, the handler writes exactly
`ERR unknown command\n`, closes, and changes no shared state: nothing is put on
the idle queue and the display state stays as it was. -/
theorem unknown_command_reply (caseTable : Nat → Nat) (r : ReadResult) (s : Sys)
    (h1 : cmdOf caseTable r.data ≠ str "reload") (h2 : cmdOf caseTable r.data ≠ str "exit") :
    handleConn caseTable r =
      [ConnEffect.write (str "ERR unknown command\n"), ConnEffect.close] ∧
    connStep caseTable r s = s ∧
    handleConn caseTable ⟨[], r.failed⟩ =
      [ConnEffect.write (str "ERR unknown command\n"), ConnEffect.close] ∧
    connStep caseTable ⟨[], r.failed⟩ s = s := by
  have h := handleConn_unknown caseTable r s h1 h2
  have h0 := handleConn_unknown caseTable ⟨[], r.failed⟩ s
    (by rw [cmdOf_nil]; decide) (by rw [cmdOf_nil]; decide)
  exact ⟨h.1, h.2, h0.1, h0.2⟩

/-- The input `status` is answered by the error line. -/
theorem unknown_command_reply_witness :
    cmdOf id (str "status") ≠ str "reload" ∧ cmdOf id (str "status") ≠ str "exit" ∧
    handleConn id ⟨str "status", false⟩ =
      [ConnEffect.write (str "ERR unknown command\n"), ConnEffect.close] :=
  ⟨by decide, by decide,
    (unknown_command_reply id ⟨str "status", false⟩ ⟨[], ⟨[], none, none, true⟩, true⟩
      (by decide) (by decide)).1⟩

/-- Claim C3: for every input whose trimmed, lowercased form is `reload`, the handler
hands one reload to the idle queue of the UI thread, writes exactly
`OK reloaded\n`, and closes; on the shared state the only change is the one
reload appended to the queue, so the display state is not touched by the
handler and no quit is queued. -/
theorem reload_command_reply (caseTable : Nat → Nat) (r : ReadResult) (s : Sys)
    (h : cmdOf caseTable r.data = str "reload") :
    handleConn caseTable r =
      [ConnEffect.idleAdd Task.reload, ConnEffect.write (str "OK reloaded\n"),
        ConnEffect.close] ∧
    connStep caseTable r s = { s with idle := s.idle ++ [Task.reload] } := by
  have hp := parseCommand_reload caseTable r.data h
  constructor
  · simp [handleConn, hp]
  · simp [connStep, handleConn, hp, applyConnEffect]

/-- The input `Reload` followed by a newline is served as a reload. -/
theorem reload_command_reply_witness :
    cmdOf id (str "Reload\n") = str "reload" ∧
    connStep id ⟨str "Reload\n", false⟩ ⟨[], ⟨[], none, none, true⟩, true⟩ =
      ⟨[Task.reload], ⟨[], none, none, true⟩, true⟩ :=
  ⟨by decide,
    (reload_command_reply id ⟨str "Reload\n", false⟩ ⟨[], ⟨[], none, none, true⟩, true⟩
      (by decide)).2⟩

/-- Claim C4: for every input whose trimmed, lowercased form is `exit`, the trace of
the handler is: write exactly `OK exiting\n`, then hand the quit to the idle
queue, then close; one quit and no reload is queued, and the write comes
before the quit is scheduled. -/
theorem exit_command_reply (caseTable : Nat → Nat) (r : ReadResult) (s : Sys)
    (h : cmdOf caseTable r.data = str "exit") :
    handleConn caseTable r =
      [ConnEffect.write (str "OK exiting\n"), ConnEffect.idleAdd Task.quit,
        ConnEffect.close] ∧
    connStep caseTable r s = { s with idle := s.idle ++ [Task.quit] } := by
  have hp := parseCommand_exit caseTable r.data h
  constructor
  · simp [handleConn, hp]
  · simp [connStep, handleConn, hp, applyConnEffect]

/-- The input `EXIT` is served as an exit. -/
theorem exit_command_reply_witness :
    cmdOf id (str " EXIT") = str "exit" ∧
    handleConn id ⟨str " EXIT", false⟩ =
      [ConnEffect.write (str "OK exiting\n"), ConnEffect.idleAdd Task.quit,
        ConnEffect.close] :=
  ⟨by decide,
    (exit_command_reply id ⟨str " EXIT", false⟩ ⟨[], ⟨[], none, none, true⟩, true⟩
      (by decide)).1⟩

/-- Claim C7, as stated, fails: a partial read is not always classified as unknown.
Of the message `reload now` the first six bytes have come in when the read
returns, without an error; the handler classifies these bytes as a reload,
puts a reload on the idle queue and answers `OK reloaded\n`, not the error
line. -/
theorem partial_read_served_as_reload :
    connRead (Arrival.bytes (str "reload now") 6) = ⟨str "reload", false⟩ ∧
    (connRead (Arrival.bytes (str "reload now") 6)).data.length <
      (str "reload now").length ∧
    parseCommand id (connRead (Arrival.bytes (str "reload now") 6)).data = Command.reload ∧
    handleConn id (connRead (Arrival.bytes (str "reload now") 6)) =
      [ConnEffect.idleAdd Task.reload, ConnEffect.write (str "OK reloaded\n"),
        ConnEffect.close] ∧
    handleConn id (connRead (Arrival.bytes (str "reload now") 6)) ≠
      [ConnEffect.write (str "ERR unknown command\n"), ConnEffect.close] ∧
    (connStep id (connRead (Arrival.bytes (str "reload now") 6))
      ⟨[], ⟨[], none, none, true⟩, true⟩).idle = [Task.reload] := by
  decide

/-- Claim C7, amended: for every connection whose read fails, the handler writes
`ERR unknown command\n` and closes; nothing is queued, the display state
is unchanged, and the accept loop goes on with the next connection. A failing
read returns no byte, and the empty input is classified as unknown. A partial
read is classified by the bytes it returned: it gets the error line exactly
when their trimmed, lowercased form is neither `reload` nor `exit`. -/
theorem failed_read_reply (caseTable : Nat → Nat) (a : Arrival)
    (s : Sys) (rest : List Accepted) (sent : GoString) (arrived : Nat)
    (hfail : (connRead a).failed = true) :
    (connRead a).data = [] ∧
    parseCommand caseTable (connRead a).data = Command.unknown ∧
    handleConn caseTable (connRead a) =
      [ConnEffect.write (str "ERR unknown command\n"), ConnEffect.close] ∧
    connStep caseTable (connRead a) s = s ∧
    controlServer caseTable (Accepted.conn (connRead a) :: rest) s =
      controlServer caseTable rest s ∧
    (handleConn caseTable (connRead (Arrival.bytes sent arrived)) =
        [ConnEffect.write (str "ERR unknown command\n"), ConnEffect.close] ↔
      cmdOf caseTable (sent.take (min arrived 256)) ≠ str "reload" ∧
        cmdOf caseTable (sent.take (min arrived 256)) ≠ str "exit") := by
  have hd : (connRead a).data = [] := by
    cases a with
    | bytes m k => simp [connRead] at hfail
    | failure => rfl
  have h1 : cmdOf caseTable (connRead a).data ≠ str "reload" := by
    rw [hd, cmdOf_nil]; decide
  have h2 : cmdOf caseTable (connRead a).data ≠ str "exit" := by
    rw [hd, cmdOf_nil]; decide
  have h := handleConn_unknown caseTable (connRead a) s h1 h2
  refine ⟨hd, parseCommand_unknown caseTable _ h1 h2, h.1, h.2, ?_, ?_⟩
  · simp [controlServer, acceptStep, h.2]
  · constructor
    · intro he
      have hp : parseCommand caseTable (sent.take (min arrived 256)) = Command.unknown := by
        rcases hc : parseCommand caseTable (sent.take (min arrived 256)) with _ | _ | _
        · simp [handleConn, connRead, hc] at he
        · simp [handleConn, connRead, hc] at he
        · rfl
      constructor
      · intro hr
        rw [parseCommand_reload caseTable _ hr] at hp
        exact Command.noConfusion hp
      · intro hx
        rw [parseCommand_exit caseTable _ hx] at hp
        exact Command.noConfusion hp
    · rintro ⟨hr, hx⟩
      exact (handleConn_unknown caseTable (connRead (Arrival.bytes sent arrived)) s hr hx).1

/-- A client that closes the connection without sending gets the error line,
and so does a partial read of `reload` that returned `rel`. -/
theorem failed_read_reply_witness :
    (connRead Arrival.failure).failed = true ∧
    handleConn id (connRead Arrival.failure) =
      [ConnEffect.write (str "ERR unknown command\n"), ConnEffect.close] ∧
    handleConn id (connRead (Arrival.bytes (str "reload") 3)) =
      [ConnEffect.write (str "ERR unknown command\n"), ConnEffect.close] :=
  ⟨rfl,
    (failed_read_reply id Arrival.failure ⟨[], ⟨[], none, none, true⟩, true⟩ []
      (str "reload") 3 rfl).2.2.1,
    by decide⟩

/-! ## The display state -/

theorem foldl_erase_self (l : List Widget) :
    l.foldl (fun cs w => cs.erase w) l = [] := by
  induction l with
  | nil => rfl
  | cons a t ih => simpa using ih

theorem loadWallpaper_children (home : GoString) (stat : GoString → Bool) (d : Desktop) :
    (Desktop.loadWallpaper home stat d).1.children =
      if findWallpaper home stat = [] then [] else [Widget.image (findWallpaper home stat)] := by
  unfold Desktop.loadWallpaper findWallpaper
  by_cases h : (findWallpaperTrace home stat).1 = []
  · simp [h, foldl_erase_self]
  · simp [h, foldl_erase_self, windowAdd]

theorem loadWallpaper_background (home : GoString) (stat : GoString → Bool) (d : Desktop)
    (h : findWallpaper home stat = []) :
    (Desktop.loadWallpaper home stat d).1.background = some black := by
  unfold findWallpaper at h
  simp [Desktop.loadWallpaper, h]

theorem reload_endState (home : GoString) (stat : GoString → Bool) (d : Desktop) :
    EndState home stat (Desktop.reload home stat d).1 := by
  unfold EndState
  by_cases h : findWallpaper home stat = []
  · simp [h, Desktop.reload, loadWallpaper_children, loadWallpaper_background]
  · simp [h, Desktop.reload, loadWallpaper_children]

/-- Claim C6: for every prior display state and every file system state, after
`loadWallpaper`, and after `reload`, the window has the image loaded from the
path `findWallpaper` returns as its only child; when `findWallpaper` returns
the empty string the window has no child and its background is set to
opaque black (red 0, green 0, blue 0, alpha 1). -/
theorem loadWallpaper_display (home : GoString) (stat : GoString → Bool) (d : Desktop) :
    (if findWallpaper home stat = [] then
        (Desktop.loadWallpaper home stat d).1.children = [] ∧
        (Desktop.loadWallpaper home stat d).1.background = some ⟨0, 0, 0, 1⟩ ∧
        (Desktop.reload home stat d).1.children = [] ∧
        (Desktop.reload home stat d).1.background = some ⟨0, 0, 0, 1⟩
      else
        (Desktop.loadWallpaper home stat d).1.children = [Widget.image (findWallpaper home stat)] ∧
        (Desktop.reload home stat d).1.children = [Widget.image (findWallpaper home stat)]) := by
  by_cases h : findWallpaper home stat = []
  · have hb := loadWallpaper_background home stat d h
    simp [h, Desktop.reload, loadWallpaper_children, hb, black] at *
  · simp [h, Desktop.reload, loadWallpaper_children]

/-! ## The mutex -/

theorem probeExts_stat (stat : GoString → Bool) (base : GoString) (exts : List GoString) :
    ∀ e ∈ (probeExts stat base exts).2, ∃ p, e = Event.stat p := by
  induction exts with
  | nil => simp [probeExts]
  | cons x xs ih =>
    intro e he
    unfold probeExts at he
    by_cases h : stat (filepathJoin [base, str "wall" ++ x]) = true
    · simp [h] at he
      exact ⟨_, he⟩
    · simp [h] at he
      rcases he with he | he
      · exact ⟨_, he⟩
      · exact ih e he

theorem probeBases_stat (stat : GoString → Bool) (bases : List GoString) :
    ∀ e ∈ (probeBases stat bases).2, ∃ p, e = Event.stat p := by
  induction bases with
  | nil => simp [probeBases]
  | cons b bs ih =>
    intro e he
    unfold probeBases at he
    have hx := probeExts_stat stat b supportedImg
    by_cases h : (probeExts stat b supportedImg).1.isSome = true
    · simp [h] at he
      exact hx e he
    · simp [h] at he
      rcases he with he | he
      · exact hx e he
      · exact ih e he

theorem findWallpaperTrace_stat (home : GoString) (stat : GoString → Bool) :
    ∀ e ∈ (findWallpaperTrace home stat).2, ∃ p, e = Event.stat p := by
  intro e he
  exact probeBases_stat stat _ e he

/-- The first candidate is probed in every execution. -/
theorem findWallpaperTrace_first (home : GoString) (stat : GoString → Bool) :
    Event.stat (filepathJoin [filepathJoin [home, str ".config"], str "wall.png"]) ∈
      (findWallpaperTrace home stat).2 := by
  have hx : Event.stat (filepathJoin [filepathJoin [home, str ".config"], str "wall.png"]) ∈
      (probeExts stat (filepathJoin [home, str ".config"]) supportedImg).2 := by
    have hs : supportedImg = str ".png" :: [str ".jpg", str ".jpeg", str ".webp"] := rfl
    have hw : str "wall" ++ str ".png" = str "wall.png" := by decide
    rw [hs, probeExts, hw]
    by_cases h : stat (filepathJoin [filepathJoin [home, str ".config"], str "wall.png"]) = true
    · simp [h]
    · simp [h]
  unfold findWallpaperTrace probeBases
  by_cases h : (probeExts stat (filepathJoin [home, str ".config"]) supportedImg).1.isSome = true
  · simp [h, hx]
  · simp [h, hx]

theorem heldEvents_body (body : List Event)
    (h : ∀ e ∈ body, e ≠ Event.lock ∧ e ≠ Event.unlock) :
    heldEvents true (body ++ [Event.unlock]) = body := by
  induction body with
  | nil => rfl
  | cons e es ih =>
    have he := h e (by simp)
    have ih2 := ih (fun x hx => h x (by simp [hx]))
    cases e <;> simp_all [heldEvents]

theorem loadWallpaper_trace (home : GoString) (stat : GoString → Bool) (d : Desktop) :
    ∃ after : List Event,
      (Desktop.loadWallpaper home stat d).2 =
        Event.lock :: ((Event.getChildren :: d.children.map Event.remove) ++
          (findWallpaperTrace home stat).2 ++ after) ++ [Event.unlock] ∧
      (∀ e ∈ after, e ≠ Event.lock ∧ e ≠ Event.unlock) ∧
      (findWallpaper home stat ≠ [] →
        Event.imageNewFromFile (findWallpaper home stat) ∈ after) := by
  unfold Desktop.loadWallpaper findWallpaper
  by_cases h : (findWallpaperTrace home stat).1 = []
  · exact ⟨[Event.overrideBackground black], by simp [h], by simp, by simp [h]⟩
  · exact ⟨[Event.imageNewFromFile (findWallpaperTrace home stat).1,
      Event.setHAlign (Widget.image (findWallpaperTrace home stat).1),
      Event.setVAlign (Widget.image (findWallpaperTrace home stat).1),
      Event.assignImage (Widget.image (findWallpaperTrace home stat).1),
      Event.add (Widget.image (findWallpaperTrace home stat).1)], by simp [h], by simp, by simp⟩

/-- Claim C9, as stated, fails: with no wallpaper file at all, and no child in the
window, the call of `os.Stat` on the first candidate happens while the mutex is
held. -/
theorem loadWallpaper_stat_while_locked :
    Event.stat (str "/home/u/.config/wall.png") ∈
      heldEvents false (Desktop.loadWallpaper (str "/home/u") (fun _ => false) ⟨[], none, none, false⟩).2 ∧
    isFileOp (Event.stat (str "/home/u/.config/wall.png")) = true := by
  decide

/-- Claim C9, amended: in every execution of `loadWallpaper` the mutex is taken first
and released last, once each, and is held over the whole body: the removal
of the children, every call of `os.Stat` made by `findWallpaper` (there is at
least one, on the first candidate), the loading of the image file when a
wallpaper is found, and the adding of the image. -/
theorem loadWallpaper_lock_span (home : GoString) (stat : GoString → Bool) (d : Desktop) :
    (Desktop.loadWallpaper home stat d).2 =
      Event.lock :: heldEvents false (Desktop.loadWallpaper home stat d).2 ++ [Event.unlock] ∧
    Event.lock ∉ heldEvents false (Desktop.loadWallpaper home stat d).2 ∧
    Event.unlock ∉ heldEvents false (Desktop.loadWallpaper home stat d).2 ∧
    (Desktop.loadWallpaper home stat d).2.filter isFileOp =
      (heldEvents false (Desktop.loadWallpaper home stat d).2).filter isFileOp ∧
    (∀ e ∈ (findWallpaperTrace home stat).2,
      e ∈ heldEvents false (Desktop.loadWallpaper home stat d).2) ∧
    Event.stat (filepathJoin [filepathJoin [home, str ".config"], str "wall.png"]) ∈
      heldEvents false (Desktop.loadWallpaper home stat d).2 ∧
    (if findWallpaper home stat = [] then True
      else Event.imageNewFromFile (findWallpaper home stat) ∈
        heldEvents false (Desktop.loadWallpaper home stat d).2) := by
  obtain ⟨after, htr, hafter, himg⟩ := loadWallpaper_trace home stat d
  have hbody : ∀ e ∈ ((Event.getChildren :: d.children.map Event.remove) ++
      (findWallpaperTrace home stat).2 ++ after), e ≠ Event.lock ∧ e ≠ Event.unlock := by
    intro e he
    simp only [List.mem_append, List.mem_cons, List.mem_map] at he
    rcases he with ((he | ⟨w, _, he⟩) | he) | he
    · subst he; simp
    · subst he; simp
    · obtain ⟨p, hp⟩ := findWallpaperTrace_stat home stat e he
      subst hp; simp
    · exact hafter e he
  have hheld : heldEvents false (Desktop.loadWallpaper home stat d).2 =
      (Event.getChildren :: d.children.map Event.remove) ++
        (findWallpaperTrace home stat).2 ++ after := by
    rw [htr]
    show heldEvents true _ = _
    exact heldEvents_body _ hbody
  rw [hheld]
  refine ⟨htr, fun h => (hbody _ h).1 rfl, fun h => (hbody _ h).2 rfl, ?_, ?_, ?_, ?_⟩
  · rw [htr]
    simp [List.filter_cons, List.filter_append, isFileOp]
  · intro e he
    simp [he]
  · have := findWallpaperTrace_first home stat
    simp [this]
  · by_cases h : findWallpaper home stat = []
    · simp [h]
    · simp [h, himg h]

/-! ## Runs of the process -/

theorem connStep_desk (caseTable : Nat → Nat) (r : ReadResult) (s : Sys) :
    (connStep caseTable r s).desk = s.desk := by
  unfold connStep handleConn
  cases parseCommand caseTable r.data <;> simp [applyConnEffect]

theorem NewDesktop_endState (home : GoString) (stat : GoString → Bool) :
    EndState home stat (NewDesktop home stat) := by
  unfold EndState NewDesktop
  by_cases h : findWallpaper home stat = []
  · simp [h, loadWallpaper_children, loadWallpaper_background]
  · simp [h, loadWallpaper_children]

theorem endState_congr (home : GoString) (stat : GoString → Bool) (d e : Desktop)
    (hc : e.children = d.children) (hb : e.background = d.background)
    (h : EndState home stat d) : EndState home stat e := by
  unfold EndState at h ⊢
  rw [hc, hb]
  exact h

theorem loadWallpaper_endState (home : GoString) (stat : GoString → Bool) (d : Desktop) :
    EndState home stat (Desktop.loadWallpaper home stat d).1 := by
  unfold EndState
  by_cases h : findWallpaper home stat = []
  · simp [h, loadWallpaper_children, loadWallpaper_background]
  · simp [h, loadWallpaper_children]

theorem foldl_applyEvent_remove (items : List Widget) (d : Desktop) :
    (items.map Event.remove).foldl applyEvent d =
      { d with children := items.foldl (fun cs w => cs.erase w) d.children } := by
  induction items generalizing d with
  | nil => rfl
  | cons w ws ih =>
    rw [List.map_cons, List.foldl_cons, ih]
    rfl

theorem foldl_applyEvent_stat (evs : List Event) (d : Desktop)
    (h : ∀ e ∈ evs, ∃ p, e = Event.stat p) : evs.foldl applyEvent d = d := by
  induction evs with
  | nil => rfl
  | cons e es ih =>
    obtain ⟨p, rfl⟩ := h e (by simp)
    rw [List.foldl_cons]
    exact ih (fun x hx => h x (by simp [hx]))

/-- The display state `loadWallpaper` returns is the one its events make, one
after the other. -/
theorem loadWallpaper_fold (home : GoString) (stat : GoString → Bool) (d : Desktop) :
    (Desktop.loadWallpaper home stat d).2.foldl applyEvent d =
      (Desktop.loadWallpaper home stat d).1 := by
  have hs := foldl_applyEvent_stat (findWallpaperTrace home stat).2
  have hst := findWallpaperTrace_stat home stat
  unfold Desktop.loadWallpaper
  by_cases h : (findWallpaperTrace home stat).1 = []
  · simp [h, List.foldl_append, foldl_applyEvent_remove, hs _ hst, applyEvent]
  · simp [h, List.foldl_append, foldl_applyEvent_remove, hs _ hst, applyEvent]

theorem foldl_lockAfter_body (l : List Event) (b : Bool)
    (h : ∀ e ∈ l, e ≠ Event.lock ∧ e ≠ Event.unlock) : l.foldl lockAfter b = b := by
  induction l with
  | nil => rfl
  | cons e es ih =>
    have he := h e (by simp)
    rw [List.foldl_cons]
    have : lockAfter b e = b := by
      cases e <;> simp_all [lockAfter]
    rw [this]
    exact ih (fun x hx => h x (by simp [hx]))

/-- The events of a reload: the message, the lock, a body without lock and
unlock, the unlock, and the showing of the window. -/
theorem reload_events (home : GoString) (stat : GoString → Bool) (d : Desktop) :
    ∃ body : List Event, (∀ e ∈ body, e ≠ Event.lock ∧ e ≠ Event.unlock) ∧
      (Desktop.loadWallpaper home stat d).2 = Event.lock :: body ++ [Event.unlock] ∧
      (Desktop.reload home stat d).2 =
        Event.println (str "Reloading wallpaper") :: Event.lock ::
          (body ++ [Event.unlock, Event.showAll]) := by
  obtain ⟨after, htr, hafter, _⟩ := loadWallpaper_trace home stat d
  refine ⟨(Event.getChildren :: d.children.map Event.remove) ++
      (findWallpaperTrace home stat).2 ++ after, ?_, htr, ?_⟩
  · intro e he
    simp only [List.mem_append, List.mem_cons, List.mem_map] at he
    rcases he with ((he | ⟨w, _, he⟩) | he) | he
    · subst he; simp
    · subst he; simp
    · obtain ⟨p, hp⟩ := findWallpaperTrace_stat home stat e he
      subst hp; simp
    · exact hafter e he
  · unfold Desktop.reload
    simp only [htr]
    simp

theorem procInv_free (home : GoString) (ok : (GoString → Bool) → Prop) (p : Proc)
    (h : ProcInv home ok p) (hl : p.locked = false) :
    ∃ st, ok st ∧ EndState home st p.sys.desk := by
  obtain ⟨d0, stat, pre, ⟨st0, hok0, hend0⟩, hok, hdesk, hlock, hcase⟩ := h
  rcases hcase with ⟨hpre, _⟩ | htrace
  · subst hpre
    exact ⟨st0, hok0, by rw [hdesk]; exact hend0⟩
  · obtain ⟨body, hbody, hlw, hrl⟩ := reload_events home stat d0
    rw [hrl] at htrace
    have hload : (Event.lock :: body ++ [Event.unlock]).foldl applyEvent d0 =
        (Desktop.loadWallpaper home stat d0).1 := by
      rw [← hlw]; exact loadWallpaper_fold home stat d0
    rcases pre with _ | ⟨x, _ | ⟨y, rest⟩⟩
    · exact ⟨st0, hok0, by rw [hdesk]; exact hend0⟩
    · simp only [List.cons_append, List.nil_append, List.cons.injEq] at htrace
      obtain ⟨hx, _⟩ := htrace
      subst hx
      exact ⟨st0, hok0, by rw [hdesk]; exact hend0⟩
    · simp only [List.cons_append, List.cons.injEq] at htrace
      obtain ⟨hx, hy, hrest⟩ := htrace
      subst hx hy
      rcases List.append_eq_append_iff.mp hrest with ⟨a, ha, hb⟩ | ⟨c, hc, _⟩
      · rcases a with _ | ⟨u, _ | ⟨v, a3⟩⟩
        · exfalso
          simp only [List.append_nil] at ha
          subst ha
          rw [hl] at hlock
          simp only [List.foldl_cons, lockAfter] at hlock
          rw [foldl_lockAfter_body _ true hbody] at hlock
          exact Bool.false_ne_true hlock
        · simp only [List.cons_append, List.nil_append, List.cons.injEq] at hb
          obtain ⟨hu, _⟩ := hb
          subst hu ha
          refine ⟨stat, hok, ?_⟩
          rw [hdesk]
          have : (Event.println (str "Reloading wallpaper") :: Event.lock ::
              (body ++ [Event.unlock])).foldl applyEvent d0 =
              (Desktop.loadWallpaper home stat d0).1 := by
            rw [List.foldl_cons]; exact hload
          rw [this]
          exact loadWallpaper_endState home stat d0
        · simp only [List.cons_append, List.cons.injEq] at hb
          obtain ⟨hu, hv, hb3⟩ := hb
          have ha3 : a3 = [] := by
            have := congrArg List.length hb3
            simp at this
            exact List.length_eq_zero.mp (by omega)
          subst hu hv ha3 ha
          refine ⟨stat, hok, ?_⟩
          rw [hdesk]
          have : (Event.println (str "Reloading wallpaper") :: Event.lock ::
              (body ++ [Event.unlock, Event.showAll])).foldl applyEvent d0 =
              applyEvent (Desktop.loadWallpaper home stat d0).1 Event.showAll := by
            rw [← hload]
            simp [List.foldl_append, applyEvent]
          rw [this]
          exact endState_congr home stat _ _ rfl rfl (loadWallpaper_endState home stat d0)
      · exfalso
        have hb2 : ∀ e ∈ rest, e ≠ Event.lock ∧ e ≠ Event.unlock := by
          intro e he
          exact hbody e (by rw [hc]; simp [he])
        rw [hl] at hlock
        simp only [List.foldl_cons, lockAfter] at hlock
        rw [foldl_lockAfter_body rest true hb2] at hlock
        exact Bool.false_ne_true hlock

theorem procInv_idle (home : GoString) (ok : (GoString → Bool) → Prop) (p : Proc)
    (h : ProcInv home ok p) (hp : p.pending = []) : p.locked = false := by
  obtain ⟨d0, stat, pre, _, _, _, hlock, hcase⟩ := h
  rcases hcase with ⟨hpre, _⟩ | htrace
  · rw [hlock, hpre]; rfl
  · obtain ⟨body, hbody, _, hrl⟩ := reload_events home stat d0
    rw [hp, List.append_nil] at htrace
    rw [hlock, ← htrace, hrl]
    simp only [List.foldl_cons, List.foldl_append, lockAfter, List.foldl_nil]

theorem procInv_move (caseTable : Nat → Nat) (home : GoString)
    (ok : (GoString → Bool) → Prop) (p : Proc) (m : Move)
    (hm : ∀ stat, m = Move.uiBegin stat → ok stat) (h : ProcInv home ok p) :
    ProcInv home ok (move caseTable home p m) := by
  cases m with
  | accept a =>
    obtain ⟨d0, stat, pre, hset, hok, hdesk, hlock, hcase⟩ := h
    refine ⟨d0, stat, pre, hset, hok, ?_, hlock, hcase⟩
    show (acceptStep caseTable a p.sys).desk = _
    cases a with
    | error => exact hdesk
    | conn r => rw [← hdesk]; exact connStep_desk caseTable r p.sys
  | effect e =>
    obtain ⟨d0, stat, pre, hset, hok, hdesk, hlock, hcase⟩ := h
    refine ⟨d0, stat, pre, hset, hok, ?_, hlock, hcase⟩
    show (applyConnEffect p.sys e).desk = _
    cases e <;> exact hdesk
  | uiBegin stat =>
    unfold move
    by_cases hg : p.sys.running = false ∨ p.pending ≠ []
    · simp only [hg, if_true]; exact h
    · simp only [hg, if_false]
      have hpend : p.pending = [] := by
        by_contra hne; exact hg (Or.inr hne)
      have hfree := procInv_idle home ok p h hpend
      have hset := procInv_free home ok p h hfree
      rcases hq : p.sys.idle with _ | ⟨t, rest⟩
      · simp only; exact h
      · cases t with
        | reload =>
          simp only
          exact ⟨p.sys.desk, stat, [], hset, hm stat rfl, rfl, hfree, Or.inr rfl⟩
        | quit =>
          simp only
          obtain ⟨d0, stat1, pre, hset1, hok, hdesk, hlock, hcase⟩ := h
          exact ⟨d0, stat1, pre, hset1, hok, hdesk, hlock, hcase⟩
  | uiEvent =>
    unfold move
    rcases hp : p.pending with _ | ⟨e, rest⟩
    · simp only; exact h
    · simp only
      obtain ⟨d0, stat, pre, hset, hok, hdesk, hlock, hcase⟩ := h
      rcases hcase with ⟨_, hnil⟩ | htrace
      · rw [hnil] at hp; exact absurd hp (by simp)
      · refine ⟨d0, stat, pre ++ [e], hset, hok, ?_, ?_, Or.inr ?_⟩
        · simp [List.foldl_append, hdesk]
        · simp [List.foldl_append, hlock]
        · rw [htrace, hp]; simp

theorem procInv_run (caseTable : Nat → Nat) (home : GoString)
    (ok : (GoString → Bool) → Prop) (moves : List Move)
    (hm : ∀ stat, Move.uiBegin stat ∈ moves → ok stat) :
    ∀ p : Proc, ProcInv home ok p → ProcInv home ok (run caseTable home moves p) := by
  induction moves with
  | nil => intro p h; exact h
  | cons m ms ih =>
    intro p h
    have h1 := procInv_move caseTable home ok p m
      (fun stat hs => hm stat (by simp [hs])) h
    exact ih (fun stat hs => hm stat (by simp [hs])) _ h1

theorem procInv_start (home : GoString) (ok : (GoString → Bool) → Prop)
    (stat0 : GoString → Bool) (queue : List Task) (h0 : ok stat0) :
    ProcInv home ok (startProc home stat0 queue) :=
  ⟨NewDesktop home stat0, stat0, [], ⟨stat0, h0, NewDesktop_endState home stat0⟩, h0, rfl, rfl,
    Or.inl ⟨rfl, rfl⟩⟩

/-- Claim C10: in every run of the process from start-up, that is for every
interleaving of the steps of connection handlers (reload commands or others,
from any number of connections) with the steps of the UI thread, under any
changes of the file system between reloads, the display state is never seen
partly updated: whenever the mutex is free, the display state is the end
state of one whole reload (the image of the path resolved at start-up or at
some reload as only child, or no child and the black background); and
whenever the UI thread is idle, the mutex is free. Reloads do not overlap:
the UI thread takes the next task only when it is idle. -/
theorem concurrent_reloads_end_state (caseTable : Nat → Nat) (home : GoString)
    (stat0 : GoString → Bool) (queue : List Task) (moves : List Move) :
    ((run caseTable home moves (startProc home stat0 queue)).locked = true ∨
      ∃ stat, (stat = stat0 ∨ Move.uiBegin stat ∈ moves) ∧
        EndState home stat (run caseTable home moves (startProc home stat0 queue)).sys.desk) ∧
    ((run caseTable home moves (startProc home stat0 queue)).pending ≠ [] ∨
      (run caseTable home moves (startProc home stat0 queue)).locked = false) := by
  have hinv := procInv_run caseTable home (fun st => st = stat0 ∨ Move.uiBegin st ∈ moves)
    moves (fun stat hs => Or.inr hs) _
    (procInv_start home _ stat0 queue (Or.inl rfl))
  constructor
  · by_cases hl : (run caseTable home moves (startProc home stat0 queue)).locked = true
    · exact Or.inl hl
    · right
      exact procInv_free home _ _ hinv (by simpa using hl)
  · by_cases hp : (run caseTable home moves (startProc home stat0 queue)).pending = []
    · exact Or.inr (procInv_idle home _ _ hinv hp)
    · exact Or.inl hp

/-- One reload command, served and run to its end: the window made at start-up
without any wallpaper file gets the image that has appeared since. -/
theorem run_reload_example :
    (run id (str "/home/u")
      ([Move.accept (Accepted.conn ⟨str "reload\n", false⟩),
        Move.uiBegin (fun p => decide (p = str "/etc/kereta/wall.png"))] ++
        List.replicate 16 Move.uiEvent)
      (startProc (str "/home/u") (fun _ => false) [])).sys.desk.children =
      [Widget.image (str "/etc/kereta/wall.png")] ∧
    (run id (str "/home/u")
      ([Move.accept (Accepted.conn ⟨str "reload\n", false⟩),
        Move.uiBegin (fun p => decide (p = str "/etc/kereta/wall.png"))] ++
        List.replicate 16 Move.uiEvent)
      (startProc (str "/home/u") (fun _ => false) [])).pending = [] ∧
    (run id (str "/home/u")
      ([Move.accept (Accepted.conn ⟨str "reload\n", false⟩),
        Move.uiBegin (fun p => decide (p = str "/etc/kereta/wall.png"))] ++
        List.replicate 8 Move.uiEvent)
      (startProc (str "/home/u") (fun _ => false) [])).locked = true := by
  decide

/-! ## Paths -/

theorem splitSlash_ne_nil (p : GoString) : splitSlash p ≠ [] := by
  induction p with
  | nil => simp [splitSlash]
  | cons c cs ih =>
    unfold splitSlash
    by_cases h : c = 47
    · simp [h]
    · simp only [h, if_false]
      rcases hs : splitSlash cs with _ | ⟨x, t⟩
      · exact absurd hs ih
      · simp

theorem splitSlash_append (e r : GoString) (he : 47 ∉ e) :
    splitSlash (e ++ r) = (e ++ (splitSlash r).headD []) :: (splitSlash r).tail := by
  induction e with
  | nil =>
    rcases hs : splitSlash r with _ | ⟨x, t⟩
    · exact absurd hs (splitSlash_ne_nil r)
    · simp [hs]
  | cons c cs ih =>
    have hc : c ≠ 47 := fun h => he (by simp [h])
    have hcs : 47 ∉ cs := fun h => he (by simp [h])
    show splitSlash (c :: (cs ++ r)) = _
    rw [splitSlash]
    simp [hc, ih hcs]

theorem splitSlash_absPath (es : List GoString) (h : ∀ e ∈ es, NormalElem e) :
    splitSlash (absPath es) = [] :: es := by
  induction es with
  | nil => simp [absPath, splitSlash]
  | cons e es ih =>
    have he := h e (by simp)
    have ih2 := ih (fun x hx => h x (by simp [hx]))
    have : absPath (e :: es) = 47 :: (e ++ absPath es) := by simp [absPath]
    rw [this, splitSlash]
    simp [splitSlash_append e (absPath es) he.2.1, ih2]

theorem foldl_cleanStep_normal (es st : List GoString) (h : ∀ e ∈ es, NormalElem e) :
    es.foldl (cleanStep true) st = es.reverse ++ st := by
  induction es generalizing st with
  | nil => rfl
  | cons e es ih =>
    have he := h e (by simp)
    have hstep : cleanStep true st e = e :: st := by
      simp [cleanStep, he.1, he.2.2.1, he.2.2.2]
    simp [List.foldl_cons, hstep, ih (e :: st) (fun x hx => h x (by simp [hx]))]

theorem joinSlash_absPath (es : List GoString) (h : es ≠ []) :
    47 :: joinSlash es = absPath es := by
  induction es with
  | nil => exact absurd rfl h
  | cons e es ih =>
    cases es with
    | nil => simp [joinSlash, absPath]
    | cons e2 es2 =>
      have := ih (by simp)
      simp only [joinSlash]
      simp [absPath] at this ⊢
      exact this

theorem absPath_ne_nil (es : List GoString) (h : es ≠ []) : absPath es ≠ [] := by
  cases es with
  | nil => exact absurd rfl h
  | cons e es => simp [absPath]

theorem absPath_head (es : List GoString) (h : es ≠ []) : (absPath es).head? = some 47 := by
  cases es with
  | nil => exact absurd rfl h
  | cons e es => simp [absPath]

theorem filepathClean_absPath (es : List GoString) (hne : es ≠ [])
    (h : ∀ e ∈ es, NormalElem e) : filepathClean (absPath es) = absPath es := by
  unfold filepathClean
  have h1 := absPath_ne_nil es hne
  have h2 := absPath_head es hne
  have h3 : (splitSlash (absPath es)).foldl (cleanStep true) [] = es.reverse := by
    rw [splitSlash_absPath es h, List.foldl_cons]
    have : cleanStep true [] [] = [] := by simp [cleanStep]
    rw [this, foldl_cleanStep_normal es [] h]
    simp
  simp only [h1, h2, if_false, decide_True, h3, List.reverse_reverse, if_true]
  have := joinSlash_absPath es hne
  simp only [List.singleton_append, this, h1, if_false]

theorem filepathJoin_absPath (es : List GoString) (name : GoString) (hne : es ≠ [])
    (h : ∀ e ∈ es, NormalElem e) (hn : NormalElem name) :
    filepathJoin [absPath es, name] = absPath es ++ 47 :: name := by
  have h1 := absPath_ne_nil es hne
  have hj : joinSlash [absPath es, name] = absPath (es ++ [name]) := by
    simp [joinSlash, absPath]
  have hc := filepathClean_absPath (es ++ [name]) (by simp)
    (by intro e he; simp at he; rcases he with he | he; exact h e he; exact he ▸ hn)
  unfold filepathJoin
  simp only [List.dropWhile, h1, decide_False]
  rw [hj, hc]
  simp [absPath]

theorem splitSlash_noslash (p : GoString) : ∀ e ∈ splitSlash p, 47 ∉ e := by
  induction p with
  | nil => simp [splitSlash]
  | cons c cs ih =>
    unfold splitSlash
    by_cases h : c = 47
    · simp only [h, if_true]
      intro e he
      simp only [List.mem_cons] at he
      rcases he with he | he
      · simp [he]
      · exact ih e he
    · simp only [h, if_false]
      rcases hs : splitSlash cs with _ | ⟨x, t⟩
      · intro e he
        simp only [List.mem_singleton] at he
        subst he
        simpa using fun h2 => h h2.symm
      · rw [hs] at ih
        intro e he
        simp only [List.mem_cons] at he
        rcases he with he | he
        · subst he
          have := ih x (by simp)
          simp only [List.mem_cons, not_or]
          exact ⟨fun h2 => h h2.symm, this⟩
        · exact ih e (by simp [he])

theorem cleanStep_rooted_normal (st : List GoString) (e : GoString) (he : 47 ∉ e)
    (hst : ∀ x ∈ st, NormalElem x) : ∀ x ∈ cleanStep true st e, NormalElem x := by
  unfold cleanStep
  by_cases h1 : e = [] ∨ e = [46]
  · simpa [h1] using hst
  · simp only [h1, if_false]
    by_cases h2 : e = [46, 46]
    · simp only [h2, if_true]
      cases st with
      | nil => simp
      | cons top below =>
        simp only [Bool.true_eq_false, false_and, if_false]
        exact fun x hx => hst x (by simp [hx])
    · simp only [h2, if_false]
      intro x hx
      simp only [List.mem_cons] at hx
      rcases hx with hx | hx
      · subst hx
        exact ⟨fun h => h1 (Or.inl h), he, fun h => h1 (Or.inr h), h2⟩
      · exact hst x hx

theorem foldl_cleanStep_rooted_normal (es st : List GoString) (hes : ∀ e ∈ es, 47 ∉ e)
    (hst : ∀ x ∈ st, NormalElem x) : ∀ x ∈ es.foldl (cleanStep true) st, NormalElem x := by
  induction es generalizing st with
  | nil => simpa using hst
  | cons e es ih =>
    rw [List.foldl_cons]
    exact ih _ (fun x hx => hes x (by simp [hx]))
      (cleanStep_rooted_normal st e (hes e (by simp)) hst)

/-- An absolute clean path other than the root is a sequence of elements, each
preceded by a separator. -/
theorem IsAbsDir.elems (p : GoString) (h : IsAbsDir p) :
    ∃ es, es ≠ [] ∧ (∀ e ∈ es, NormalElem e) ∧ p = absPath es := by
  obtain ⟨hc, hh, hr⟩ := h
  have hp : p ≠ [] := by intro h0; simp [h0] at hh
  have hk := foldl_cleanStep_rooted_normal (splitSlash p) [] (splitSlash_noslash p) (by simp)
  unfold filepathClean at hc
  simp only [hp, if_false, hh, decide_True, if_true, List.singleton_append,
    List.cons_ne_nil] at hc
  refine ⟨((splitSlash p).foldl (cleanStep true) []).reverse, ?_, ?_, ?_⟩
  · intro h0
    rw [h0] at hc
    exact hr (by simpa [joinSlash] using hc.symm)
  · intro e he
    exact hk e (by simpa using he)
  · by_cases h0 : ((splitSlash p).foldl (cleanStep true) []).reverse = []
    · rw [h0] at hc
      exact absurd (by simpa [joinSlash] using hc.symm) hr
    · rw [← joinSlash_absPath _ h0]
      exact hc.symm

theorem filepathJoin_absDir (p name : GoString) (h : IsAbsDir p) (hn : NormalElem name) :
    filepathJoin [p, name] = p ++ 47 :: name ∧ IsAbsDir (p ++ 47 :: name) := by
  obtain ⟨es, hne, hes, rfl⟩ := IsAbsDir.elems p h
  refine ⟨filepathJoin_absPath es name hne hes hn, ?_⟩
  have hx : absPath es ++ 47 :: name = absPath (es ++ [name]) := by simp [absPath]
  have hall : ∀ e ∈ es ++ [name], NormalElem e := by
    intro e he; simp at he; rcases he with he | he; exact hes e he; exact he ▸ hn
  rw [hx]
  refine ⟨filepathClean_absPath _ (by simp) hall, absPath_head _ (by simp), ?_⟩
  cases es with
  | nil => exact absurd rfl hne
  | cons e es => simp [absPath]

theorem filepathClean_ne_nil (p : GoString) : filepathClean p ≠ [] := by
  unfold filepathClean
  by_cases h : p = []
  · simp [h]
  · simp only [h, if_false]
    generalize (if decide (p.head? = some 47) = true then [47] else []) ++
      joinSlash ((splitSlash p).foldl (cleanStep (decide (p.head? = some 47))) []).reverse = out
    by_cases ho : out = []
    · simp [ho]
    · simp [ho]

theorem filepathJoin_ne_nil (a b : GoString) (hb : b ≠ []) : filepathJoin [a, b] ≠ [] := by
  unfold filepathJoin
  by_cases ha : a = []
  · simp [List.dropWhile, ha, hb, filepathClean_ne_nil]
  · simp [List.dropWhile, ha, filepathClean_ne_nil]

/-! ## The wallpaper resolver -/

theorem probeExts_fst (stat : GoString → Bool) (base : GoString) (exts : List GoString) :
    (probeExts stat base exts).1 =
      (exts.map fun ext => filepathJoin [base, str "wall" ++ ext]).find? stat := by
  induction exts with
  | nil => rfl
  | cons x xs ih =>
    unfold probeExts
    by_cases h : stat (filepathJoin [base, str "wall" ++ x]) = true
    · simp [h]
    · simp [h, ih]

theorem probeBases_fst (stat : GoString → Bool) (bases : List GoString) :
    (probeBases stat bases).1 =
      (bases.flatMap fun base =>
        supportedImg.map fun ext => filepathJoin [base, str "wall" ++ ext]).find? stat := by
  induction bases with
  | nil => rfl
  | cons b bs ih =>
    unfold probeBases
    have hx := probeExts_fst stat b supportedImg
    rw [List.flatMap_cons, List.find?_append, ← hx, ← ih]
    cases hp : (probeExts stat b supportedImg).1 <;> simp [hp]

theorem findWallpaper_eq_find (home : GoString) (stat : GoString → Bool) :
    findWallpaper home stat = ((candidates home).find? stat).getD [] := by
  unfold findWallpaper findWallpaperTrace
  simp only [probeBases_fst]
  rfl

theorem candidates_ne_nil (home : GoString) : ∀ c ∈ candidates home, c ≠ [] := by
  intro c hc
  simp only [candidates, List.mem_cons, List.mem_singleton, List.not_mem_nil, or_false] at hc
  rcases hc with h | h | h | h | h | h | h | h <;> subst h <;>
    exact filepathJoin_ne_nil _ _ (by decide)

theorem find_first (stat : GoString → Bool) (pre post : List GoString) (p : GoString)
    (hpre : ∀ q ∈ pre, stat q = false) (hp : stat p = true) :
    (pre ++ p :: post).find? stat = some p := by
  induction pre with
  | nil => simp [hp]
  | cons a t ih =>
    have ha := hpre a (by simp)
    simp [ha, ih (fun q hq => hpre q (by simp [hq]))]

theorem candidates_absDir (home : GoString) (h : IsAbsDir home) :
    candidates home =
      [home ++ str "/.config/wall.png", home ++ str "/.config/wall.jpg",
       home ++ str "/.config/wall.jpeg", home ++ str "/.config/wall.webp",
       str "/etc/kereta/wall.png", str "/etc/kereta/wall.jpg",
       str "/etc/kereta/wall.jpeg", str "/etc/kereta/wall.webp"] := by
  have hu := filepathJoin_absDir home (str ".config") h (by unfold NormalElem; decide)
  have h1 := (filepathJoin_absDir _ (str "wall.png") hu.2 (by unfold NormalElem; decide)).1
  have h2 := (filepathJoin_absDir _ (str "wall.jpg") hu.2 (by unfold NormalElem; decide)).1
  have h3 := (filepathJoin_absDir _ (str "wall.jpeg") hu.2 (by unfold NormalElem; decide)).1
  have h4 := (filepathJoin_absDir _ (str "wall.webp") hu.2 (by unfold NormalElem; decide)).1
  have e1 : filepathJoin [str "/etc/kereta", str "wall.png"] = str "/etc/kereta/wall.png" := by
    decide
  have e2 : filepathJoin [str "/etc/kereta", str "wall.jpg"] = str "/etc/kereta/wall.jpg" := by
    decide
  have e3 : filepathJoin [str "/etc/kereta", str "wall.jpeg"] = str "/etc/kereta/wall.jpeg" := by
    decide
  have e4 : filepathJoin [str "/etc/kereta", str "wall.webp"] = str "/etc/kereta/wall.webp" := by
    decide
  unfold candidates
  rw [hu.1, h1, h2, h3, h4, e1, e2, e3, e4]
  simp only [List.append_assoc]
  rfl

/-- Claim C5: for every file system state, `findWallpaper` returns the first path
that exists among its eight candidates, taken in the order of the search (the
candidates before it not existing), and returns the empty string exactly when
none of the eight exists. For a home directory given as a clean absolute path
the candidates are `<home>/.config/wall.png`, `.jpg`, `.jpeg`, `.webp`, then
`/etc/kereta/wall.png`, `.jpg`, `.jpeg`, `.webp`. -/
theorem findWallpaper_first_existing (home : GoString) (stat : GoString → Bool) :
    (∀ pre p post, candidates home = pre ++ p :: post →
      (∀ q ∈ pre, stat q = false) → stat p = true → findWallpaper home stat = p) ∧
    (findWallpaper home stat = [] ↔ ∀ c ∈ candidates home, stat c = false) ∧
    (IsAbsDir home →
      candidates home =
        [home ++ str "/.config/wall.png", home ++ str "/.config/wall.jpg",
         home ++ str "/.config/wall.jpeg", home ++ str "/.config/wall.webp",
         str "/etc/kereta/wall.png", str "/etc/kereta/wall.jpg",
         str "/etc/kereta/wall.jpeg", str "/etc/kereta/wall.webp"]) := by
  refine ⟨?_, ?_, candidates_absDir home⟩
  · intro pre p post hcs hpre hp
    rw [findWallpaper_eq_find, hcs, find_first stat pre post p hpre hp]
    rfl
  · rw [findWallpaper_eq_find]
    constructor
    · intro h c hc
      cases hf : (candidates home).find? stat with
      | none =>
        have := List.find?_eq_none.mp hf c hc
        simpa using this
      | some p =>
        rw [hf] at h
        have hmem := List.mem_of_find?_eq_some hf
        exact absurd (by simpa using h) (candidates_ne_nil home p hmem)
    · intro h
      have : (candidates home).find? stat = none :=
        List.find?_eq_none.mpr (fun c hc => by simp [h c hc])
      rw [this]
      rfl

/-- With only `/etc/kereta/wall.jpg` present the resolver returns it, and once
`/home/u/.config/wall.png` is added it returns that; the home directory is
`/home/u`. -/
theorem findWallpaper_first_existing_witness :
    IsAbsDir (str "/home/u") ∧
    candidates (str "/home/u") =
      [str "/home/u/.config/wall.png", str "/home/u/.config/wall.jpg",
       str "/home/u/.config/wall.jpeg", str "/home/u/.config/wall.webp",
       str "/etc/kereta/wall.png", str "/etc/kereta/wall.jpg",
       str "/etc/kereta/wall.jpeg", str "/etc/kereta/wall.webp"] ∧
    findWallpaper (str "/home/u") (fun p => decide (p = str "/etc/kereta/wall.jpg")) =
      str "/etc/kereta/wall.jpg" ∧
    findWallpaper (str "/home/u") (fun p =>
        decide (p = str "/etc/kereta/wall.jpg" ∨ p = str "/home/u/.config/wall.png")) =
      str "/home/u/.config/wall.png" :=
  ⟨by decide,
    (findWallpaper_first_existing (str "/home/u")
      (fun p => decide (p = str "/etc/kereta/wall.jpg"))).2.2 (by decide),
    (findWallpaper_first_existing (str "/home/u")
      (fun p => decide (p = str "/etc/kereta/wall.jpg"))).1
      [str "/home/u/.config/wall.png", str "/home/u/.config/wall.jpg",
       str "/home/u/.config/wall.jpeg", str "/home/u/.config/wall.webp",
       str "/etc/kereta/wall.png"]
      (str "/etc/kereta/wall.jpg")
      [str "/etc/kereta/wall.jpeg", str "/etc/kereta/wall.webp"]
      (by decide) (by decide) (by decide),
    (findWallpaper_first_existing (str "/home/u") (fun p =>
        decide (p = str "/etc/kereta/wall.jpg" ∨ p = str "/home/u/.config/wall.png"))).1
      []
      (str "/home/u/.config/wall.png")
      [str "/home/u/.config/wall.jpg", str "/home/u/.config/wall.jpeg",
       str "/home/u/.config/wall.webp", str "/etc/kereta/wall.png",
       str "/etc/kereta/wall.jpg", str "/etc/kereta/wall.jpeg", str "/etc/kereta/wall.webp"]
      (by decide) (by decide) (by decide)⟩

/-! ## The socket path -/

theorem decimalFrom_value (fuel n : Nat) (acc : GoString) (h : n < fuel) :
    (decimalFrom fuel n acc).foldl (fun a d => 10 * a + (d - 48)) 0 =
      acc.foldl (fun a d => 10 * a + (d - 48)) n := by
  induction fuel generalizing n acc with
  | zero => omega
  | succ f ih =>
    unfold decimalFrom
    by_cases hn : n < 10
    · simp [hn]
    · simp only [hn, if_false]
      rw [ih (n / 10) _ (by omega)]
      simp only [List.foldl_cons]
      congr 1
      omega

/-- The decimal form of a number denotes that number: the fuel of
`formatDecimal` is enough for all its digits. -/
theorem formatDecimal_value (n : Nat) : decimalValue (formatDecimal n) = n := by
  unfold decimalValue formatDecimal
  rw [decimalFrom_value (n + 1) n [] (by omega)]
  rfl

theorem decimalFrom_digits (fuel n : Nat) (acc : GoString)
    (h : ∀ b ∈ acc, 48 ≤ b ∧ b ≤ 57) : ∀ b ∈ decimalFrom fuel n acc, 48 ≤ b ∧ b ≤ 57 := by
  induction fuel generalizing n acc with
  | zero => simpa [decimalFrom] using h
  | succ f ih =>
    unfold decimalFrom
    by_cases hn : n < 10
    · simp only [hn, if_true]
      intro b hb
      simp only [List.mem_cons] at hb
      rcases hb with hb | hb
      · omega
      · exact h b hb
    · simp only [hn, if_false]
      apply ih
      intro b hb
      simp only [List.mem_cons] at hb
      rcases hb with hb | hb
      · omega
      · exact h b hb

theorem formatDecimal_digits (n : Nat) : ∀ b ∈ formatDecimal n, 48 ≤ b ∧ b ≤ 57 :=
  decimalFrom_digits (n + 1) n [] (by simp)

theorem fallback_sockPath (uid : Nat) :
    filepathJoin [str "/tmp/live-" ++ formatDecimal uid, str "live.sock"] =
      str "/tmp/live-" ++ formatDecimal uid ++ str "/live.sock" := by
  have hd := formatDecimal_digits uid
  have hn : NormalElem (str "live-" ++ formatDecimal uid) := by
    refine ⟨by simp [str], ?_, by simp [str], by simp [str]⟩
    intro hmem
    simp only [List.mem_append] at hmem
    rcases hmem with hmem | hmem
    · revert hmem; decide
    · have := hd 47 hmem; omega
  have hes : ∀ e ∈ [str "tmp", str "live-" ++ formatDecimal uid], NormalElem e := by
    intro e he
    simp only [List.mem_cons, List.mem_singleton, List.not_mem_nil, or_false] at he
    rcases he with he | he
    · subst he; unfold NormalElem; decide
    · subst he; exact hn
  have hp : str "/tmp/live-" ++ formatDecimal uid =
      absPath [str "tmp", str "live-" ++ formatDecimal uid] := by
    simp [absPath, str]
  rw [hp, filepathJoin_absPath _ (str "live.sock") (by simp) hes (by unfold NormalElem; decide)]
  rfl

/-- Claim C8, as stated, fails: with `XDG_RUNTIME_DIR` set to the empty string the
socket path is the fallback `/tmp/live-1000/live.sock` for uid 1000, not
`/live.sock`; and with `XDG_RUNTIME_DIR` set to `/run/user/1000/` it is
`/run/user/1000/live.sock`, not that value followed by `/live.sock`. -/
theorem sockPath_set_but_empty :
    sockPath ⟨some [], 1000⟩ = str "/tmp/live-1000/live.sock" ∧
    sockPath ⟨some [], 1000⟩ ≠ [] ++ str "/live.sock" ∧
    sockPath ⟨some (str "/run/user/1000/"), 1000⟩ =
      str "/run/user/1000/live.sock" ∧
    sockPath ⟨some (str "/run/user/1000/"), 1000⟩ ≠
      str "/run/user/1000/" ++ str "/live.sock" := by
  decide

/-- Claim C8, amended: when `XDG_RUNTIME_DIR` is unset or empty the socket path is
`/tmp/live-<uid>/live.sock`, the uid in decimal; when it is set to a value
that is not empty the socket path is `filepath.Join(value, "live.sock")`, which
is the value followed by `/live.sock` when the value is a clean absolute
path. -/
theorem sockPath_value (env : Env) :
    (sockPath env =
      match env.xdgRuntimeDir with
      | none => str "/tmp/live-" ++ formatDecimal env.uid ++ str "/live.sock"
      | some v =>
        if v = [] then str "/tmp/live-" ++ formatDecimal env.uid ++ str "/live.sock"
        else filepathJoin [v, str "live.sock"]) ∧
    (∀ v, env.xdgRuntimeDir = some v → IsAbsDir v → sockPath env = v ++ str "/live.sock") := by
  constructor
  · unfold sockPath runtimeDir getenv
    cases hx : env.xdgRuntimeDir with
    | none => simp [fallback_sockPath]
    | some v =>
      by_cases hv : v = []
      · simp [hv, fallback_sockPath]
      · simp [hv]
  · intro v hx hv
    have hne : v ≠ [] := by
      intro h0; rw [h0] at hv; exact absurd hv (by decide)
    unfold sockPath runtimeDir getenv
    simp only [hx, Option.getD_some, ne_eq, hne, not_false_eq_true, if_true]
    rw [(filepathJoin_absDir v (str "live.sock") hv (by unfold NormalElem; decide)).1]
    rfl

/-- With `XDG_RUNTIME_DIR` set to `/run/user/1000` the socket path is
`/run/user/1000/live.sock`. -/
theorem sockPath_value_witness :
    IsAbsDir (str "/run/user/1000") ∧
    sockPath ⟨some (str "/run/user/1000"), 1000⟩ =
      str "/run/user/1000" ++ str "/live.sock" :=
  ⟨by decide,
    (sockPath_value ⟨some (str "/run/user/1000"), 1000⟩).2
      (str "/run/user/1000") rfl (by decide)⟩

/-! ## UTF-8 decoding -/

theorem leadInfo_bounds (b sz lo hi : Nat) (h : leadInfo b = some (sz, lo, hi)) :
    0x80 ≤ b ∧ 2 ≤ sz ∧ sz ≤ 4 ∧ 0x80 ≤ lo ∧ hi ≤ 0xBF := by
  unfold leadInfo at h
  split_ifs at h <;> simp at h <;> omega

theorem decodeRune_size_le (s : GoString) : (decodeRune s).2 ≤ s.length := by
  rcases s with _ | ⟨s0, rest⟩
  · simp [decodeRune]
  · rcases hl : leadInfo s0 with _ | ⟨sz, lo, hi⟩
    · simp only [decodeRune, hl]; split_ifs <;> simp
    · rcases rest with _ | ⟨s1, _ | ⟨s2, _ | ⟨s3, r⟩⟩⟩ <;> simp only [decodeRune, hl] <;>
        split_ifs <;> simp

theorem decodeRune_size_pos (s0 : Nat) (rest : GoString) : 1 ≤ (decodeRune (s0 :: rest)).2 := by
  rcases hl : leadInfo s0 with _ | ⟨sz, lo, hi⟩
  · simp only [decodeRune, hl]; split_ifs <;> simp
  · rcases rest with _ | ⟨s1, _ | ⟨s2, _ | ⟨s3, r⟩⟩⟩ <;> simp only [decodeRune, hl] <;>
      split_ifs <;> simp

theorem decodeRune_ascii (b : Nat) (rest : GoString) (h : b < 0x80) :
    decodeRune (b :: rest) = (b, 1) := by
  simp [decodeRune, h]

/-- Bytes after an encoding that do not continue it play no part: a string
followed by a byte that is not a continuation byte decodes as the string
alone. -/
theorem decodeRune_append (c w : GoString) (hc : c ≠ [])
    (hw : ∀ x, w.head? = some x → x < 0x80 ∨ 0xBF < x) :
    decodeRune (c ++ w) = decodeRune c := by
  rcases w with _ | ⟨x, w⟩
  · simp
  · have hx := hw x rfl
    rcases c with _ | ⟨s0, rest⟩
    · exact absurd rfl hc
    · rcases hl : leadInfo s0 with _ | ⟨sz, lo, hi⟩
      · simp only [List.cons_append, decodeRune, hl]
      · have hb := leadInfo_bounds _ _ _ _ hl
        rcases rest with _ | ⟨s1, _ | ⟨s2, _ | ⟨s3, r⟩⟩⟩ <;>
          simp only [List.cons_append, List.nil_append, decodeRune, hl, List.length_cons,
            List.length_nil, List.length_append] <;>
          split_ifs <;> first | rfl | omega

theorem asciiLower_cases (x : Nat) :
    asciiLower x = x ∨ (x < 0x80 ∧ asciiLower x < 0x80) := by
  unfold asciiLower; split_ifs <;> omega

theorem asciiLower_of_ge (x : Nat) (h : 0x80 ≤ x) : asciiLower x = x := by
  unfold asciiLower; split_ifs <;> omega

theorem leadInfo_range (b sz lo hi : Nat) (h : leadInfo b = some (sz, lo, hi)) :
    (sz = 2 ∧ 0xC2 ≤ b ∧ b ≤ 0xDF) ∨
    (sz = 3 ∧ 0xE0 ≤ b ∧ b ≤ 0xEF ∧ (b = 0xE0 → lo = 0xA0)) ∨
    (sz = 4 ∧ 0xF0 ≤ b ∧ b ≤ 0xF4 ∧ (b = 0xF0 → lo = 0x90)) := by
  unfold leadInfo at h
  split_ifs at h <;> simp at h <;> omega

theorem decodeRune_rune_ge (s0 : Nat) (rest : GoString) (h0 : 0x80 ≤ s0) :
    0x80 ≤ (decodeRune (s0 :: rest)).1 := by
  have h0n : ¬ s0 < 0x80 := by omega
  rcases hl : leadInfo s0 with _ | ⟨sz, lo, hi⟩
  · simp [decodeRune, hl, h0n, runeError]
  · have hb := leadInfo_bounds _ _ _ _ hl
    have hr := leadInfo_range _ _ _ _ hl
    rcases rest with _ | ⟨s1, _ | ⟨s2, _ | ⟨s3, r⟩⟩⟩ <;>
      simp only [decodeRune, hl, h0n, if_false, List.length_cons, List.length_nil] <;>
      split_ifs <;> simp only [runeError] <;> omega

theorem decodeRune_map_tail (s0 : Nat) (rest : GoString) (h0 : 0x80 ≤ s0) :
    decodeRune (s0 :: rest.map asciiLower) = decodeRune (s0 :: rest) := by
  have h0n : ¬ s0 < 0x80 := by omega
  rcases hl : leadInfo s0 with _ | ⟨sz, lo, hi⟩
  · simp [decodeRune, hl, h0n]
  · have hb := leadInfo_bounds _ _ _ _ hl
    rcases rest with _ | ⟨s1, _ | ⟨s2, _ | ⟨s3, r⟩⟩⟩
    · simp [decodeRune, hl, h0n]
    all_goals
      simp only [List.map, decodeRune, hl, h0n, if_false, List.length_cons,
        List.length_nil, List.length_map]
    · have c1 := asciiLower_cases s1
      generalize asciiLower s1 = t1 at c1 ⊢
      split_ifs <;> first | (with_reducible rfl) | (exfalso; omega) | (rw [show t1 = s1 from by omega])
    · have c1 := asciiLower_cases s1
      have c2 := asciiLower_cases s2
      generalize asciiLower s1 = t1 at c1 ⊢
      generalize asciiLower s2 = t2 at c2 ⊢
      split_ifs <;> first | (with_reducible rfl) | (exfalso; omega) |
        (rw [show t1 = s1 from by omega, show t2 = s2 from by omega]) |
        (rw [show t1 = s1 from by omega])
    · have c1 := asciiLower_cases s1
      have c2 := asciiLower_cases s2
      have c3 := asciiLower_cases s3
      generalize asciiLower s1 = t1 at c1 ⊢
      generalize asciiLower s2 = t2 at c2 ⊢
      generalize asciiLower s3 = t3 at c3 ⊢
      split_ifs <;> first | (with_reducible rfl) | (exfalso; omega) |
        (rw [show t1 = s1 from by omega, show t2 = s2 from by omega,
          show t3 = s3 from by omega]) |
        (rw [show t1 = s1 from by omega, show t2 = s2 from by omega]) |
        (rw [show t1 = s1 from by omega])

/-- Decoding commutes with the ASCII case shift. -/
theorem decodeRune_map_lower (s0 : Nat) (rest : GoString) :
    decodeRune ((s0 :: rest).map asciiLower) =
      (asciiLower (decodeRune (s0 :: rest)).1, (decodeRune (s0 :: rest)).2) := by
  by_cases h0 : s0 < 0x80
  · have := asciiLower_cases s0
    have h1 : asciiLower s0 < 0x80 := by omega
    simp [decodeRune, h0, h1]
  · have e0 : asciiLower s0 = s0 := asciiLower_of_ge s0 (by omega)
    rw [List.map_cons, e0, decodeRune_map_tail s0 rest (by omega),
      asciiLower_of_ge _ (decodeRune_rune_ge s0 rest (by omega))]

/-! ## White space runes -/

theorem isSpace_cases (r : Nat) (h : isSpace r = true) :
    r = 9 ∨ r = 10 ∨ r = 11 ∨ r = 12 ∨ r = 13 ∨ r = 32 ∨ r = 0x85 ∨ r = 0xA0 ∨
    r = 0x1680 ∨ (0x2000 ≤ r ∧ r ≤ 0x200A) ∨ r = 0x2028 ∨ r = 0x2029 ∨ r = 0x202F ∨
    r = 0x205F ∨ r = 0x3000 := by
  unfold isSpace at h
  split_ifs at h <;> simp at h <;> omega

theorem isSpace_lt (r : Nat) (h : isSpace r = true) : r < 0xD800 := by
  have := isSpace_cases r h
  omega

theorem asciiSpace_eq_isSpace (c : Nat) (h : c < 0x80) : asciiSpace c = isSpace c := by
  unfold asciiSpace isSpace
  have : c ≤ 0xFF := by omega
  simp only [this, if_true]
  have h1 : decide (c = 0x85) = false := by simp; omega
  have h2 : decide (c = 0xA0) = false := by simp; omega
  simp [h1, h2]

theorem encodeRune_ne_nil (r : Nat) : encodeRune r ≠ [] := by
  unfold encodeRune; split_ifs <;> simp

theorem encodeRune_head (r x : Nat) (hr : r < 0xD800) (h : (encodeRune r).head? = some x) :
    x < 0x80 ∨ 0xBF < x := by
  unfold encodeRune at h
  split_ifs at h <;> simp at h <;> omega

theorem leadInfo_two (a : Nat) (h1 : 0xC2 ≤ a) (h2 : a ≤ 0xDF) :
    leadInfo a = some (2, 0x80, 0xBF) := by
  unfold leadInfo
  split_ifs <;> first | rfl | (exfalso; omega)

theorem leadInfo_three (a : Nat) (h1 : 0xE0 ≤ a) (h2 : a ≤ 0xEF) :
    leadInfo a = some (3, if a = 0xE0 then 0xA0 else 0x80, if a = 0xED then 0x9F else 0xBF) := by
  unfold leadInfo
  split_ifs <;> first | rfl | (exfalso; omega)

theorem decodeRune_two (a b : Nat) (s : GoString) (h1 : 0xC2 ≤ a) (h2 : a ≤ 0xDF)
    (h3 : 0x80 ≤ b) (h4 : b ≤ 0xBF) :
    decodeRune (a :: b :: s) = (a % 32 * 64 + b % 64, 2) := by
  have h0 : ¬ a < 0x80 := by omega
  have hr : ¬ (b < 0x80 ∨ 0xBF < b) := by omega
  simp [decodeRune, h0, leadInfo_two a h1 h2, hr]

theorem decodeRune_three (a b c : Nat) (s : GoString) (h1 : 0xE0 ≤ a) (h2 : a ≤ 0xEF)
    (h3 : (if a = 0xE0 then 0xA0 else 0x80) ≤ b) (h4 : b ≤ (if a = 0xED then 0x9F else 0xBF))
    (h5 : 0x80 ≤ c) (h6 : c ≤ 0xBF) :
    decodeRune (a :: b :: c :: s) = (a % 16 * 4096 + b % 64 * 64 + c % 64, 3) := by
  have h0 : ¬ a < 0x80 := by omega
  have hr : ¬ (b < (if a = 0xE0 then 0xA0 else 0x80) ∨ (if a = 0xED then 0x9F else 0xBF) < b) := by
    omega
  have hc : ¬ (c < 0x80 ∨ 0xBF < c) := by omega
  simp [decodeRune, h0, leadInfo_three a h1 h2, hr, hc]

/-- The shape of the encoding of a rune below the surrogates: one ASCII byte,
or a lead byte and one or two continuation bytes that decode to the rune. -/
theorem encodeRune_shape (r : Nat) (hr : r < 0xD800) :
    (r < 0x80 ∧ encodeRune r = [r]) ∨
    (∃ a b, encodeRune r = [a, b] ∧ 0xC2 ≤ a ∧ a ≤ 0xDF ∧ 0x80 ≤ b ∧ b ≤ 0xBF ∧
      a % 32 * 64 + b % 64 = r) ∨
    (∃ a b c, encodeRune r = [a, b, c] ∧ 0xE0 ≤ a ∧ a ≤ 0xEF ∧
      (if a = 0xE0 then 0xA0 else 0x80) ≤ b ∧ b ≤ (if a = 0xED then 0x9F else 0xBF) ∧
      0x80 ≤ c ∧ c ≤ 0xBF ∧ a % 16 * 4096 + b % 64 * 64 + c % 64 = r) := by
  unfold encodeRune
  by_cases h1 : r ≤ 0x7F
  · left
    exact ⟨by omega, by simp [h1]⟩
  · by_cases h2 : r ≤ 0x7FF
    · right; left
      refine ⟨0xC0 + r / 64, 0x80 + r % 64, by simp [h1, h2], ?_, ?_, ?_, ?_, ?_⟩ <;> omega
    · right; right
      have h3 : ¬ (0x10FFFF < r ∨ (0xD800 ≤ r ∧ r ≤ 0xDFFF)) := by omega
      have h4 : r ≤ 0xFFFF := by omega
      refine ⟨0xE0 + r / 4096, 0x80 + r / 64 % 64, 0x80 + r % 64, by simp [h1, h2, h3, h4],
        ?_, ?_, ?_, ?_, ?_, ?_, ?_⟩
      · omega
      · omega
      · split_ifs <;> omega
      · split_ifs <;> omega
      · omega
      · omega
      · omega

/-- Decoding undoes encoding, for the runes below the surrogates. -/
theorem decodeRune_encodeRune (r : Nat) (s : GoString) (hr : r < 0xD800) :
    decodeRune (encodeRune r ++ s) = (r, (encodeRune r).length) := by
  rcases encodeRune_shape r hr with ⟨h, he⟩ | ⟨a, b, he, h1, h2, h3, h4, h5⟩ |
    ⟨a, b, c, he, h1, h2, h3, h4, h5, h6, h7⟩
  · rw [he]; exact decodeRune_ascii r s h
  · rw [he, ← h5]; exact decodeRune_two a b s h1 h2 h3 h4
  · rw [he, ← h7]; exact decodeRune_three a b c s h1 h2 h3 h4 h5 h6

theorem decodeLastRune_ascii (xs : GoString) (b : Nat) (h : b < 0x80) :
    decodeLastRune (xs ++ [b]) = (b, 1) := by
  simp [decodeLastRune, h]

theorem getD_append_at (x l : GoString) (i : Nat) :
    (x ++ l).getD (x.length + i) 0 = l.getD i 0 := by
  simp [List.getD_eq_getElem?_getD, List.getElem?_append_right]

theorem decodeLastRune_two (x : GoString) (a b : Nat) (h1 : 0xC2 ≤ a) (h2 : a ≤ 0xDF)
    (h3 : 0x80 ≤ b) (h4 : b ≤ 0xBF) :
    decodeLastRune (x ++ [a, b]) = (a % 32 * 64 + b % 64, 2) := by
  have hrev : (x ++ [a, b]).reverse = b :: a :: x.reverse := by simp
  have hb : ¬ b < 0x80 := by omega
  have hlen : (x ++ [a, b]).length = x.length + 2 := by simp
  have hg : (x ++ [a, b]).getD (x.length + 2 - 2) 0 = a := by
    have := getD_append_at x [a, b] 0
    simpa using this
  have hs : runeStart a = true := by
    unfold runeStart; simp; omega
  have hd : (x ++ [a, b]).drop (x.length + 2 - 2) = [a, b] := by simp
  unfold decodeLastRune
  rw [hrev]
  simp only [hb, if_false, hlen, hg, hs, and_true, Nat.le_add_left, if_true, hd,
    decodeRune_two a b [] h1 h2 h3 h4]
  simp

theorem decodeLastRune_three (x : GoString) (a b c : Nat) (h1 : 0xE0 ≤ a) (h2 : a ≤ 0xEF)
    (h3 : (if a = 0xE0 then 0xA0 else 0x80) ≤ b) (h4 : b ≤ (if a = 0xED then 0x9F else 0xBF))
    (h5 : 0x80 ≤ c) (h6 : c ≤ 0xBF) :
    decodeLastRune (x ++ [a, b, c]) = (a % 16 * 4096 + b % 64 * 64 + c % 64, 3) := by
  have hrev : (x ++ [a, b, c]).reverse = c :: b :: a :: x.reverse := by simp
  have hc : ¬ c < 0x80 := by omega
  have hlen : (x ++ [a, b, c]).length = x.length + 3 := by simp
  have hg2 : (x ++ [a, b, c]).getD (x.length + 3 - 2) 0 = b := by
    have := getD_append_at x [a, b, c] 1
    simpa using this
  have hg3 : (x ++ [a, b, c]).getD (x.length + 3 - 3) 0 = a := by
    have := getD_append_at x [a, b, c] 0
    simpa using this
  have hb : 0x80 ≤ b ∧ b ≤ 0xBF := by
    constructor
    · split_ifs at h3 <;> omega
    · split_ifs at h4 <;> omega
  have hs2 : runeStart b = false := by
    unfold runeStart; simp; omega
  have hs3 : runeStart a = true := by
    unfold runeStart; simp; omega
  have hd : (x ++ [a, b, c]).drop (x.length + 3 - 3) = [a, b, c] := by simp
  unfold decodeLastRune
  rw [hrev]
  simp only [hc, if_false, hlen, hg2, hg3, hs2, hs3, and_true, and_false,
    Bool.false_eq_true, Nat.le_add_left, if_true, hd,
    decodeRune_three a b c [] h1 h2 h3 h4 h5 h6]
  simp

/-- Decoding from the end undoes encoding, for the runes below the surrogates. -/
theorem decodeLastRune_encodeRune (r : Nat) (x : GoString) (hr : r < 0xD800) :
    decodeLastRune (x ++ encodeRune r) = (r, (encodeRune r).length) := by
  rcases encodeRune_shape r hr with ⟨h, he⟩ | ⟨a, b, he, h1, h2, h3, h4, h5⟩ |
    ⟨a, b, c, he, h1, h2, h3, h4, h5, h6, h7⟩
  · rw [he]; exact decodeLastRune_ascii x r h
  · rw [he, ← h5]; exact decodeLastRune_two x a b h1 h2 h3 h4
  · rw [he, ← h7]; exact decodeLastRune_three x a b c h1 h2 h3 h4 h5 h6

/-! ## Lowercasing -/

theorem runesFrom_map_lower (s : GoString) (k : Nat) :
    runesFrom k (s.map asciiLower) = (runesFrom k s).map asciiLower := by
  induction s generalizing k with
  | nil => cases k <;> simp [runesFrom]
  | cons b bs ih =>
    cases k with
    | succ k => simpa [runesFrom] using ih k
    | zero =>
      have hd := decodeRune_map_lower b bs
      rw [List.map_cons] at hd ⊢
      simp only [runesFrom, hd, List.map_cons, ih]

theorem asciiLower_le (r : Nat) (h : r ≤ 0x7F) : asciiLower r ≤ 0x7F := by
  unfold asciiLower; split_ifs <;> omega

theorem asciiLower_idem (r : Nat) : asciiLower (asciiLower r) = asciiLower r := by
  unfold asciiLower; split_ifs <;> omega

theorem unicodeToLower_asciiLower (tab : Nat → Nat) (r : Nat) :
    unicodeToLower tab (asciiLower r) = unicodeToLower tab r := by
  unfold unicodeToLower
  by_cases h : r ≤ 0x7F
  · simp [h, asciiLower_le r h, asciiLower_idem]
  · rw [asciiLower_of_ge r (by omega)]
    simp [h]

theorem stringsMap_map_lower (tab : Nat → Nat) (s : GoString) :
    stringsMap (unicodeToLower tab) (s.map asciiLower) = stringsMap (unicodeToLower tab) s := by
  unfold stringsMap runes
  rw [runesFrom_map_lower, List.flatMap_map]
  simp only [unicodeToLower_asciiLower]

theorem runesFrom_skip (p s : GoString) (k : Nat) (h : p.length = k) :
    runesFrom k (p ++ s) = runesFrom 0 s := by
  induction p generalizing k with
  | nil => simp at h; subst h; rfl
  | cons b bs ih =>
    cases k with
    | zero => simp at h
    | succ k =>
      simp only [List.cons_append, runesFrom]
      exact ih k (by simpa using h)

theorem runesFrom_encode (r : Nat) (s : GoString) (hr : r < 0xD800) :
    runesFrom 0 (encodeRune r ++ s) = r :: runesFrom 0 s := by
  have hd := decodeRune_encodeRune r s hr
  rcases he : encodeRune r with _ | ⟨b, p⟩
  · exact absurd he (encodeRune_ne_nil r)
  · rw [he] at hd
    simp only [List.cons_append] at hd ⊢
    simp only [runesFrom, hd, List.length_cons, Nat.add_sub_cancel]
    rw [runesFrom_skip p s p.length rfl]

theorem runesFrom_spaces (rs : List Nat) (s : GoString) (h : ∀ r ∈ rs, isSpace r = true) :
    runesFrom 0 (rs.flatMap encodeRune ++ s) = rs ++ runesFrom 0 s := by
  induction rs with
  | nil => rfl
  | cons r rs ih =>
    rw [List.flatMap_cons, List.append_assoc,
      runesFrom_encode r _ (isSpace_lt r (h r (by simp))),
      ih (fun x hx => h x (by simp [hx]))]
    rfl

theorem spaces_head (rs : List Nat) (h : ∀ r ∈ rs, isSpace r = true) (x : Nat)
    (hx : (rs.flatMap encodeRune).head? = some x) : x < 0x80 ∨ 0xBF < x := by
  cases rs with
  | nil => simp at hx
  | cons r rs =>
    have hr := isSpace_lt r (h r (by simp))
    rcases he : encodeRune r with _ | ⟨b, p⟩
    · exact absurd he (encodeRune_ne_nil r)
    · rw [List.flatMap_cons, he] at hx
      simp only [List.cons_append, List.head?_cons, Option.some.injEq] at hx
      subst hx
      exact encodeRune_head r b hr (by rw [he]; rfl)

theorem blank_head (w : GoString) (h : Blank w) (x : Nat) (hx : w.head? = some x) :
    x < 0x80 ∨ 0xBF < x := by
  obtain ⟨rs, hrs, rfl⟩ := h
  exact spaces_head rs hrs x hx

theorem runesFrom_append_spaces (c : GoString) (rs : List Nat) (k : Nat) (hk : k ≤ c.length)
    (h : ∀ r ∈ rs, isSpace r = true) :
    runesFrom k (c ++ rs.flatMap encodeRune) = runesFrom k c ++ rs := by
  induction c generalizing k with
  | nil =>
    have : k = 0 := by simpa using hk
    subst this
    have := runesFrom_spaces rs [] h
    simpa [runesFrom] using this
  | cons b bs ih =>
    cases k with
    | succ k =>
      simp only [List.cons_append, runesFrom]
      exact ih k (by simpa using hk)
    | zero =>
      have hd : decodeRune (b :: (bs ++ rs.flatMap encodeRune)) = decodeRune (b :: bs) := by
        have := decodeRune_append (b :: bs) (rs.flatMap encodeRune) (by simp)
          (spaces_head rs h)
        simpa using this
      have hs := decodeRune_size_le (b :: bs)
      have hih := ih ((decodeRune (b :: bs)).2 - 1)
        (by simp only [List.length_cons] at hs; omega)
      show (decodeRune (b :: (bs ++ rs.flatMap encodeRune))).1 ::
          runesFrom ((decodeRune (b :: (bs ++ rs.flatMap encodeRune))).2 - 1)
            (bs ++ rs.flatMap encodeRune) = _
      rw [hd, hih]
      rfl

theorem runesFrom_ascii (w : GoString) (hw : ∀ b ∈ w, b < 0x80) : runesFrom 0 w = w := by
  induction w with
  | nil => rfl
  | cons b bs ih =>
    have hb := hw b (by simp)
    simp [runesFrom, decodeRune_ascii b _ hb, ih (fun x hx => hw x (by simp [hx]))]

theorem encode_lower_ascii (tab : Nat → Nat) (b : Nat) (h : b < 0x80) :
    encodeRune (unicodeToLower tab b) = [asciiLower b] := by
  have h1 : b ≤ 0x7F := by omega
  have h2 := asciiLower_le b h1
  simp [unicodeToLower, h1, encodeRune, h2]

theorem stringsMap_ascii (tab : Nat → Nat) (s : GoString) (hs : ∀ b ∈ s, b < 0x80) :
    stringsMap (unicodeToLower tab) s = s.map asciiLower := by
  unfold stringsMap runes
  rw [runesFrom_ascii s hs]
  induction s with
  | nil => rfl
  | cons b bs ih =>
    simp only [List.flatMap_cons, List.map_cons, encode_lower_ascii tab b (hs b (by simp)),
      List.singleton_append]
    rw [ih (fun x hx => hs x (by simp [hx]))]

/-- The fast path of `strings.ToLower` for ASCII strings gives what the general
path gives. -/
theorem toLower_eq_stringsMap (tab : Nat → Nat) (s : GoString) :
    toLower tab s = stringsMap (unicodeToLower tab) s := by
  unfold toLower
  by_cases ha : s.all (fun c => decide (c < 0x80)) = true
  · have hs : ∀ b ∈ s, b < 0x80 := by simpa using ha
    simp only [ha, if_true]
    rw [stringsMap_ascii tab s hs]
    by_cases hu : s.any (fun c => decide (65 ≤ c ∧ c ≤ 90)) = true
    · simp only [hu, Bool.not_true, Bool.false_eq_true, if_false]
    · simp only [hu, Bool.not_false, if_true]
      have hno : ∀ b ∈ s, ¬ (65 ≤ b ∧ b ≤ 90) := by simpa using hu
      symm
      calc s.map asciiLower = s.map id := by
            apply List.map_congr_left
            intro b hb
            simp [asciiLower, hno b hb]
        _ = s := by simp
  · simp [ha]

theorem flatMap_sameLower (tab : Nat → Nat) (xs ys : List Nat)
    (h : List.Forall₂ (SameLower tab) xs ys) :
    xs.flatMap (fun c => encodeRune (unicodeToLower tab c)) =
      ys.flatMap (fun c => encodeRune (unicodeToLower tab c)) := by
  induction h with
  | nil => rfl
  | cons hab _ ih =>
    unfold SameLower at hab
    simp only [List.flatMap_cons, hab, ih]

/-- Strings that differ only in letters with the same lower case form have the
same lower case form. -/
theorem toLower_caseVariant (tab : Nat → Nat) (s t : GoString) (h : CaseVariant tab s t) :
    toLower tab s = toLower tab t := by
  rw [toLower_eq_stringsMap, toLower_eq_stringsMap]
  exact flatMap_sameLower tab _ _ h

theorem forall₂_map_eq {f : Nat → Nat} {g : Nat → Nat} (xs ys : List Nat)
    (h : xs.map f = ys.map f) (hg : ∀ a b, f a = f b → g a = g b) :
    List.Forall₂ (fun a b => g a = g b) xs ys := by
  induction xs generalizing ys with
  | nil =>
    cases ys with
    | nil => exact List.Forall₂.nil
    | cons y ys => simp at h
  | cons x xs ih =>
    cases ys with
    | nil => simp at h
    | cons y ys =>
      simp only [List.map_cons, List.cons.injEq] at h
      exact List.Forall₂.cons (hg x y h.1) (ih ys h.2)

/-- Strings of bytes, valid UTF-8 or not, that differ byte by byte only in the
case of the letters `A` to `Z` are case variants for every case table. -/
theorem caseVariant_of_ascii (tab : Nat → Nat) (s t : GoString)
    (h : s.map asciiLower = t.map asciiLower) : CaseVariant tab s t := by
  unfold CaseVariant runes
  have hr : (runesFrom 0 s).map asciiLower = (runesFrom 0 t).map asciiLower := by
    rw [← runesFrom_map_lower, ← runesFrom_map_lower, h]
  refine forall₂_map_eq _ _ hr ?_
  intro a b hab
  rw [← unicodeToLower_asciiLower tab a, ← unicodeToLower_asciiLower tab b, hab]

/-- A rune and its lower case form have the same lower case form, when lower
case forms are left as they are by the table. -/
theorem sameLower_of_lower (tab : Nat → Nat)
    (hidem : ∀ r, unicodeToLower tab (unicodeToLower tab r) = unicodeToLower tab r)
    (a b : Nat) (h : a = b ∨ unicodeToLower tab a = b ∨ unicodeToLower tab b = a) :
    SameLower tab a b := by
  unfold SameLower
  rcases h with h | h | h
  · rw [h]
  · rw [← h, hidem]
  · rw [← h, hidem]

theorem latinLower_space (r : Nat) (h : isSpace r = true) : latinLower r = r := by
  unfold latinLower
  split_ifs with h1 h2
  · subst h1; exact absurd h (by decide)
  · subst h2; exact absurd h (by decide)
  · rfl

theorem unicodeToLower_space (tab : Nat → Nat) (htab : ∀ r, isSpace r = true → tab r = r)
    (r : Nat) (h : isSpace r = true) : unicodeToLower tab r = r := by
  unfold unicodeToLower
  by_cases h1 : r ≤ 0x7F
  · have := isSpace_cases r h
    simp only [h1, if_true]
    unfold asciiLower
    split_ifs <;> omega
  · simp [h1, htab r h]

theorem spaces_lower (tab : Nat → Nat) (htab : ∀ r, isSpace r = true → tab r = r)
    (rs : List Nat) (h : ∀ r ∈ rs, isSpace r = true) :
    (rs.flatMap fun c => encodeRune (unicodeToLower tab c)) = rs.flatMap encodeRune := by
  induction rs with
  | nil => rfl
  | cons r rs ih =>
    rw [List.flatMap_cons, List.flatMap_cons, unicodeToLower_space tab htab r (h r (by simp)),
      ih (fun x hx => h x (by simp [hx]))]

/-- White space around a string stays in place when the string is lowercased. -/
theorem toLower_padded (tab : Nat → Nat) (htab : ∀ r, isSpace r = true → tab r = r)
    (w1 c w2 : GoString) (h1 : Blank w1) (h2 : Blank w2) :
    toLower tab (w1 ++ c ++ w2) = w1 ++ toLower tab c ++ w2 := by
  obtain ⟨r1, hr1, rfl⟩ := h1
  obtain ⟨r2, hr2, rfl⟩ := h2
  simp only [toLower_eq_stringsMap]
  unfold stringsMap runes
  rw [List.append_assoc, runesFrom_spaces r1 _ hr1,
    runesFrom_append_spaces c r2 0 (by omega) hr2]
  simp only [List.flatMap_append, spaces_lower tab htab r1 hr1, spaces_lower tab htab r2 hr2,
    List.append_assoc]

/-! ## Trimming -/

theorem trimStart_cons (c : Nat) (rest : GoString) :
    trimStart (c :: rest) =
      if 0x80 ≤ c then trimFunc (c :: rest)
      else if asciiSpace c then trimStart rest
      else trimStopRev (c :: rest).reverse := rfl

theorem trimStopRev_cons (c : Nat) (rest : List Nat) :
    trimStopRev (c :: rest) =
      if 0x80 ≤ c then trimRightFunc (c :: rest).reverse
      else if asciiSpace c then trimStopRev rest
      else (c :: rest).reverse := rfl

theorem trimLeftFrom_zero_cons (b : Nat) (bs : GoString) :
    trimLeftFrom 0 (b :: bs) =
      if isSpace (decodeRune (b :: bs)).1 then
        trimLeftFrom ((decodeRune (b :: bs)).2 - 1) bs
      else b :: bs := rfl

theorem lastNonSpaceFrom_zero_cons (b : Nat) (rs : List Nat) :
    lastNonSpaceFrom 0 (b :: rs) =
      if isSpace (decodeLastRune (b :: rs).reverse).1 then
        lastNonSpaceFrom ((decodeLastRune (b :: rs).reverse).2 - 1) rs
      else some ((b :: rs).length - (decodeLastRune (b :: rs).reverse).2) := rfl

theorem blank_nil : Blank [] := ⟨[], by simp, rfl⟩

theorem blank_single (c : Nat) (h : isSpace c = true) (hc : c < 0x80) : Blank [c] := by
  refine ⟨[c], by simpa using h, ?_⟩
  have : c ≤ 0x7F := by omega
  simp [encodeRune, this]

theorem trimLeftFrom_skip (p s : GoString) (k : Nat) (h : p.length = k) :
    trimLeftFrom k (p ++ s) = trimLeftFrom 0 s := by
  induction p generalizing k with
  | nil => simp at h; subst h; rfl
  | cons b bs ih =>
    cases k with
    | zero => simp at h
    | succ k =>
      simp only [List.cons_append, trimLeftFrom]
      exact ih k (by simpa using h)

theorem trimLeftFrom_encode (r : Nat) (s : GoString) (h : isSpace r = true) :
    trimLeftFrom 0 (encodeRune r ++ s) = trimLeftFrom 0 s := by
  have hd := decodeRune_encodeRune r s (isSpace_lt r h)
  rcases he : encodeRune r with _ | ⟨b, p⟩
  · exact absurd he (encodeRune_ne_nil r)
  · rw [he] at hd
    simp only [List.cons_append] at hd ⊢
    rw [trimLeftFrom_zero_cons, hd]
    simp only [h, if_true, List.length_cons, Nat.add_sub_cancel]
    exact trimLeftFrom_skip p s p.length rfl

theorem trimLeftFrom_spaces (rs : List Nat) (s : GoString) (h : ∀ r ∈ rs, isSpace r = true) :
    trimLeftFrom 0 (rs.flatMap encodeRune ++ s) = trimLeftFrom 0 s := by
  induction rs with
  | nil => rfl
  | cons r rs ih =>
    rw [List.flatMap_cons, List.append_assoc, trimLeftFrom_encode r _ (h r (by simp)),
      ih (fun x hx => h x (by simp [hx]))]

theorem trimLeftFrom_blank_append (w s : GoString) (h : Blank w) :
    trimLeftFrom 0 (w ++ s) = trimLeftFrom 0 s := by
  obtain ⟨rs, hrs, rfl⟩ := h
  exact trimLeftFrom_spaces rs s hrs

theorem trimLeftFrom_blank (w : GoString) (h : Blank w) : trimLeftFrom 0 w = [] := by
  have := trimLeftFrom_blank_append w [] h
  simpa [trimLeftFrom] using this

theorem trimLeftFrom_append_blank (y w : GoString) (k : Nat) (hk : k ≤ y.length)
    (h : Blank w) : ∃ v, Blank v ∧ trimLeftFrom k (y ++ w) = trimLeftFrom k y ++ v := by
  induction y generalizing k with
  | nil =>
    have : k = 0 := by simpa using hk
    subst this
    exact ⟨[], blank_nil, by simp [trimLeftFrom_blank w h, trimLeftFrom]⟩
  | cons b bs ih =>
    cases k with
    | succ k =>
      simp only [List.cons_append, trimLeftFrom]
      exact ih k (by simpa using hk)
    | zero =>
      have hd : decodeRune (b :: (bs ++ w)) = decodeRune (b :: bs) := by
        have := decodeRune_append (b :: bs) w (by simp) (blank_head w h)
        simpa using this
      have hs := decodeRune_size_le (b :: bs)
      rw [List.cons_append, trimLeftFrom_zero_cons, trimLeftFrom_zero_cons, hd]
      by_cases hsp : isSpace (decodeRune (b :: bs)).1 = true
      · simp only [hsp, if_true]
        exact ih _ (by simp only [List.length_cons] at hs; omega)
      · simp only [hsp, if_false]
        exact ⟨w, h, rfl⟩

theorem decodeLastRune_size_pos (s : GoString) (h : s ≠ []) : 1 ≤ (decodeLastRune s).2 := by
  have hpos : 0 < s.length := List.length_pos.mpr h
  unfold decodeLastRune
  rcases hr : s.reverse with _ | ⟨r, before⟩
  · exact absurd (by simpa using hr) h
  · simp only
    split_ifs <;> first | (simp; done) | omega

theorem lastNonSpaceFrom_skip (p rs : List Nat) (k : Nat) (h : p.length = k) :
    lastNonSpaceFrom k (p ++ rs) = lastNonSpaceFrom 0 rs := by
  induction p generalizing k with
  | nil => simp at h; subst h; rfl
  | cons b bs ih =>
    cases k with
    | zero => simp at h
    | succ k =>
      simp only [List.cons_append, lastNonSpaceFrom]
      exact ih k (by simpa using h)

theorem lastNonSpaceFrom_encode (r : Nat) (rs : List Nat) (h : isSpace r = true) :
    lastNonSpaceFrom 0 ((encodeRune r).reverse ++ rs) = lastNonSpaceFrom 0 rs := by
  have hd := decodeLastRune_encodeRune r rs.reverse (isSpace_lt r h)
  rcases he : (encodeRune r).reverse with _ | ⟨b, p⟩
  · exact absurd (by simpa using he) (encodeRune_ne_nil r)
  · have hrev : (b :: (p ++ rs)).reverse = rs.reverse ++ encodeRune r := by
      have : encodeRune r = (b :: p).reverse := by rw [← he, List.reverse_reverse]
      rw [this]; simp
    have hlen : (encodeRune r).length = p.length + 1 := by
      have := congrArg List.length he
      simpa using this
    rw [List.cons_append, lastNonSpaceFrom_zero_cons, hrev, hd]
    simp only [h, if_true, hlen, Nat.add_sub_cancel]
    exact lastNonSpaceFrom_skip p rs p.length rfl

theorem lastNonSpaceFrom_spaces (rs : List Nat) (tail : List Nat)
    (h : ∀ r ∈ rs, isSpace r = true) :
    lastNonSpaceFrom 0 ((rs.flatMap encodeRune).reverse ++ tail) = lastNonSpaceFrom 0 tail := by
  induction rs generalizing tail with
  | nil => rfl
  | cons r rs ih =>
    rw [List.flatMap_cons, List.reverse_append, List.append_assoc,
      ih _ (fun x hx => h x (by simp [hx])), lastNonSpaceFrom_encode r tail (h r (by simp))]

theorem lastNonSpaceFrom_lt (rs : List Nat) (k i : Nat)
    (h : lastNonSpaceFrom k rs = some i) : i < rs.length := by
  induction rs generalizing k with
  | nil => simp [lastNonSpaceFrom] at h
  | cons b bs ih =>
    cases k with
    | succ k =>
      simp only [lastNonSpaceFrom] at h
      have := ih k h
      simp only [List.length_cons]; omega
    | zero =>
      rw [lastNonSpaceFrom_zero_cons] at h
      have hp := decodeLastRune_size_pos (b :: bs).reverse (by simp)
      split_ifs at h
      · have := ih _ h
        simp only [List.length_cons]; omega
      · simp only [Option.some.injEq, List.length_cons] at h
        simp only [List.length_cons]; omega

theorem trimRightFunc_append_blank (z w : GoString) (h : Blank w) :
    trimRightFunc (z ++ w) = trimRightFunc z := by
  have hlast : lastNonSpaceFrom 0 (z ++ w).reverse = lastNonSpaceFrom 0 z.reverse := by
    obtain ⟨rs, hrs, rfl⟩ := h
    rw [List.reverse_append]
    exact lastNonSpaceFrom_spaces rs _ hrs
  unfold trimRightFunc
  rw [hlast]
  rcases hl : lastNonSpaceFrom 0 z.reverse with _ | i
  · rfl
  · have hi : i < z.length := by
      have := lastNonSpaceFrom_lt _ _ _ hl
      simpa using this
    have hg : (z ++ w).getD i 0 = z.getD i 0 := by
      simp [List.getD_eq_getElem?_getD, List.getElem?_append_left hi]
    have hdrop : (z ++ w).drop i = z.drop i ++ w := List.drop_append_of_le_length (by omega)
    have hne : z.drop i ≠ [] := by
      intro h0
      have := congrArg List.length h0
      simp at this; omega
    have hd : decodeRune ((z ++ w).drop i) = decodeRune (z.drop i) := by
      rw [hdrop]
      exact decodeRune_append _ w hne (blank_head w h)
    have hsz := decodeRune_size_le (z.drop i)
    simp only [List.length_drop] at hsz
    simp only [hg, hd]
    split_ifs
    · exact List.take_append_of_le_length (by omega)
    · exact List.take_append_of_le_length (by omega)

/-- White space around a string does not change what `strings.TrimFunc` with
`unicode.IsSpace` returns. -/
theorem trimFunc_padded (w1 x w2 : GoString) (h1 : Blank w1) (h2 : Blank w2) :
    trimFunc (w1 ++ x ++ w2) = trimFunc x := by
  unfold trimFunc
  rw [List.append_assoc, trimLeftFrom_blank_append w1 _ h1]
  obtain ⟨v, hv, he⟩ := trimLeftFrom_append_blank x w2 0 (by omega) h2
  rw [he, trimRightFunc_append_blank _ v hv]

theorem trimRightFunc_ascii_end (y : GoString) (c : Nat) (hc : c < 0x80)
    (hs : isSpace c = false) : trimRightFunc (y ++ [c]) = y ++ [c] := by
  unfold trimRightFunc
  have hrev : (y ++ [c]).reverse = c :: y.reverse := by simp
  have hd : decodeLastRune (c :: y.reverse).reverse = (c, 1) := by
    rw [← hrev, List.reverse_reverse]
    exact decodeLastRune_ascii y c hc
  rw [hrev, lastNonSpaceFrom_zero_cons, hd]
  simp only [hs, Bool.false_eq_true, if_false, List.length_cons, List.length_reverse,
    Nat.add_sub_cancel]
  have hg : (y ++ [c]).getD y.length 0 = c := by
    simp
  have hn : ¬ 0x80 ≤ c := by omega
  simp only [hg, hn, if_false]
  exact List.take_of_length_le (by simp)

theorem trimStopRev_eq (r : List Nat) : trimStopRev r = trimRightFunc r.reverse := by
  induction r with
  | nil => rfl
  | cons c rest ih =>
    rw [trimStopRev_cons]
    by_cases h1 : 0x80 ≤ c
    · simp only [h1, if_true]
    · simp only [h1, if_false]
      have hc : c < 0x80 := by omega
      have he := asciiSpace_eq_isSpace c hc
      by_cases h2 : asciiSpace c = true
      · simp only [h2, if_true]
        rw [ih, List.reverse_cons,
          trimRightFunc_append_blank _ [c] (blank_single c (by rw [← he]; exact h2) hc)]
      · have h3 : asciiSpace c = false := by simpa using h2
        simp only [h3, Bool.false_eq_true, if_false]
        rw [List.reverse_cons, trimRightFunc_ascii_end _ c hc (by rw [← he]; exact h3)]

/-- The fast path of `strings.TrimSpace` for ASCII gives what
`strings.TrimFunc` with `unicode.IsSpace` gives. -/
theorem trimStart_eq_trimFunc (x : GoString) : trimStart x = trimFunc x := by
  induction x with
  | nil => rfl
  | cons c rest ih =>
    rw [trimStart_cons]
    by_cases h1 : 0x80 ≤ c
    · simp only [h1, if_true]
    · simp only [h1, if_false]
      have hc : c < 0x80 := by omega
      have he := asciiSpace_eq_isSpace c hc
      have hd := decodeRune_ascii c rest hc
      by_cases h2 : asciiSpace c = true
      · simp only [h2, if_true]
        rw [ih]
        unfold trimFunc
        rw [trimLeftFrom_zero_cons, hd]
        simp only [← he, h2, if_true]
      · have h3 : asciiSpace c = false := by simpa using h2
        simp only [h3, Bool.false_eq_true, if_false]
        rw [trimStopRev_eq, List.reverse_reverse]
        unfold trimFunc
        rw [trimLeftFrom_zero_cons, hd]
        simp only [← he, h3, Bool.false_eq_true, if_false]

/-- White space around a string does not change what `strings.TrimSpace`
returns. -/
theorem trimSpace_padded (w1 x w2 : GoString) (h1 : Blank w1) (h2 : Blank w2) :
    trimSpace (w1 ++ x ++ w2) = trimSpace x := by
  unfold trimSpace
  rw [trimStart_eq_trimFunc, trimStart_eq_trimFunc, trimFunc_padded w1 x w2 h1 h2]

/-- Command strings that differ only in letters with the same lower case form
or in the white space around them are normalised to the same string. -/
theorem cmdOf_sameCommandText (tab : Nat → Nat) (htab : ∀ r, isSpace r = true → tab r = r)
    (s t : GoString) (h : SameCommandText tab s t) : cmdOf tab s = cmdOf tab t := by
  obtain ⟨w1, c, w2, v1, d, v2, hs, ht, hw1, hw2, hv1, hv2, hcd⟩ := h
  subst hs ht
  unfold cmdOf
  rw [toLower_padded tab htab w1 c w2 hw1 hw2, toLower_padded tab htab v1 d v2 hv1 hv2,
    trimSpace_padded _ _ _ hw1 hw2, trimSpace_padded _ _ _ hv1 hv2,
    toLower_caseVariant tab c d hcd]

/-! ## The command parser -/

theorem cmdOf_reload (tab : Nat → Nat) : cmdOf tab (str "reload") = str "reload" := by
  unfold cmdOf
  have h1 : toLower tab (str "reload") = str "reload" := by rfl
  rw [h1]
  rfl

theorem sameCommandText_reload (tab : Nat → Nat) :
    SameCommandText tab (str "RELOAD ") (str "reload") := by
  refine ⟨[], str "RELOAD", str " ", [], str "reload", [], by decide, by decide,
    blank_nil, ⟨[32], by decide, by decide⟩, blank_nil, blank_nil, ?_⟩
  exact caseVariant_of_ascii tab _ _ (by decide)

/-- Claim C1, as stated, fails: the strings `ex` + U+0131 + `t` (with the small dotless
i, bytes `C4 B1`) and `EXIT` differ only in the case of their letters, the
second being the upper case form of the first letter by letter, yet the
first is classified as unknown and answered by the error line while the
second is classified as exit: `strings.ToLower` leaves the dotless i, a lower
case letter, as it is, and makes `i` of `I`. -/
theorem dotless_i_not_folded :
    DifferInCase latinLower latinUpper [0x65, 0x78, 0xC4, 0xB1, 0x74] (str "EXIT") ∧
    (runes [0x65, 0x78, 0xC4, 0xB1, 0x74]).map (unicodeToUpper latinUpper) =
      runes (str "EXIT") ∧
    parseCommand latinLower [0x65, 0x78, 0xC4, 0xB1, 0x74] = Command.unknown ∧
    parseCommand latinLower (str "EXIT") = Command.exit ∧
    handleConn latinLower ⟨[0x65, 0x78, 0xC4, 0xB1, 0x74], false⟩ =
      [ConnEffect.write (str "ERR unknown command\n"), ConnEffect.close] ∧
    handleConn latinLower ⟨str "EXIT", false⟩ =
      [ConnEffect.write (str "OK exiting\n"), ConnEffect.idleAdd Task.quit,
        ConnEffect.close] := by
  refine ⟨?_, by decide, by decide, by decide, by decide, by decide⟩
  show List.Forall₂ (CaseForms latinLower latinUpper) [0x65, 0x78, 0x131, 0x74]
    [0x45, 0x58, 0x49, 0x54]
  repeat first
    | exact List.Forall₂.nil
    | refine List.Forall₂.cons (Or.inr (Or.inl (by decide))) ?_

/-- Claim C1, amended: command strings that differ only in letters with the same lower
case form under `unicode.ToLower` (`A` to `Z` against `a` to `z`, and beyond
ASCII such letters as U+0130 against `i`) or in the white space around them
(what `strings.TrimSpace` trims: tab, line feed, vertical tab, form feed,
carriage return, space and the Unicode spaces) are classified alike, as
reload, exit or unknown, and served alike; `RELOAD` followed by a space is
classified as `reload` is, as a reload. This holds for all strings of bytes,
valid UTF-8 or not, and for every case table of `unicode.ToLower` that leaves
the space runes as they are. -/
theorem parseCommand_case_space (caseTable : Nat → Nat) (s t : GoString) (failed : Bool)
    (htab : ∀ r, isSpace r = true → caseTable r = r) (h : SameCommandText caseTable s t) :
    parseCommand caseTable s = parseCommand caseTable t ∧
    handleConn caseTable ⟨s, failed⟩ = handleConn caseTable ⟨t, failed⟩ ∧
    parseCommand caseTable (str "RELOAD ") = parseCommand caseTable (str "reload") ∧
    parseCommand caseTable (str "reload") = Command.reload := by
  have hc := cmdOf_sameCommandText caseTable htab s t h
  have hr := cmdOf_sameCommandText caseTable htab _ _ (sameCommandText_reload caseTable)
  refine ⟨?_, ?_, ?_, ?_⟩
  · simp only [parseCommand, hc]
  · simp only [handleConn, parseCommand, hc]
  · simp only [parseCommand, hr]
  · simp [parseCommand, cmdOf_reload]

/-- The string `EX` + U+0130 + `t` (with the capital I with dot above, bytes
`C4 B0`) between a no-break space with a tab and a line end, and the string
`exit`, are both classified as exit. -/
theorem parseCommand_case_space_witness :
    SameCommandText latinLower
      ([0xC2, 0xA0] ++ str "\tEX" ++ [0xC4, 0xB0] ++ str "t\r\n") (str "exit") ∧
    parseCommand latinLower
      ([0xC2, 0xA0] ++ str "\tEX" ++ [0xC4, 0xB0] ++ str "t\r\n") = Command.exit ∧
    parseCommand latinLower (str "exit") = Command.exit :=
  have hs : SameCommandText latinLower
      ([0xC2, 0xA0] ++ str "\tEX" ++ [0xC4, 0xB0] ++ str "t\r\n") (str "exit") :=
    ⟨[0xC2, 0xA0] ++ str "\t", str "EX" ++ [0xC4, 0xB0] ++ str "t", str "\r\n",
      [], str "exit", [], by decide, by decide,
      ⟨[0xA0, 9], by decide, by decide⟩, ⟨[13, 10], by decide, by decide⟩,
      ⟨[], by decide, by decide⟩, ⟨[], by decide, by decide⟩,
      by
        show List.Forall₂ (SameLower latinLower) [0x45, 0x58, 0x130, 0x74]
          [0x65, 0x78, 0x69, 0x74]
        exact List.Forall₂.cons (by unfold SameLower; decide)
          (List.Forall₂.cons (by unfold SameLower; decide)
            (List.Forall₂.cons (by unfold SameLower; decide)
              (List.Forall₂.cons (by unfold SameLower; decide) List.Forall₂.nil)))⟩
  ⟨hs,
    (parseCommand_case_space latinLower
      ([0xC2, 0xA0] ++ str "\tEX" ++ [0xC4, 0xB0] ++ str "t\r\n") (str "exit") false
      latinLower_space hs).1.trans (by decide),
    by decide⟩

end Kewd
